import Mathlib

/-!
# Verification of the HierarchicalContextBridge core scheduler

A shallow embedding, in Lean 4, of the core of the
`HierarchicalContextBridge` repository:

* `core/bridge_scheduler/global_bridge.py` — node states, the state-flag
  store, the instant-trigger coordinator, the controlled context bridge
  with its audit log, and the `execute_dag` scheduling loop;
* `core/dag_scheduler/task_decomposer.py` — the `TaskDAG` readiness check
  and its title-based dependency lookup;
* `core/context_manager/hierarchical_context.py` — the four-layer context
  store and its per-node visibility filter.

Python dictionaries (insertion ordered) are embedded as association
lists, machine timestamps (`datetime.now()`) as an abstract `Nat` clock
that ticks once per recorded state transition, and the Python logger's
per-transition record as an explicit event list `(node, old, new)` so
that re-issued transitions are observable, exactly as a log reader would
observe them.  All definitions are executable.
-/

namespace HCB

/-- `NodeState` from `global_bridge.py` (IDLE/READY/EXECUTING/COMPLETED/
FAILED/BLOCKED).  The spec calls the initial state PENDING; the code
calls it IDLE. -/
inductive NodeState where
  | idle
  | ready
  | executing
  | completed
  | failed
  | blocked
deriving DecidableEq, Repr

/-- The wire value of a state (`NodeState.value` in the source). -/
def NodeState.value : NodeState → String
  | .idle => "idle"
  | .ready => "ready"
  | .executing => "executing"
  | .completed => "completed"
  | .failed => "failed"
  | .blocked => "blocked"

/-- `ExecutionNode` from `global_bridge.py`.  `result` and `error` are
`Option String` (Python `Any = None` / `Optional[str]`); timestamps are
abstract clock readings. -/
structure ExecutionNode where
  id : String
  role : String
  taskId : String
  state : NodeState := .idle
  upstreamNodes : List String := []
  downstreamNodes : List String := []
  prompt : String := ""
  contextData : List (String × String) := []
  result : Option String := none
  error : Option String := none
  executionTime : Nat := 0
  createdAt : Nat := 0
  startedAt : Option Nat := none
  completedAt : Option Nat := none
deriving DecidableEq, Repr

/-- Values appearing in a node's `to_dict()` serialization. -/
inductive Value where
  | s : String → Value
  | n : Nat → Value
  | strList : List String → Value
  | dict : List (String × String) → Value
  | opt : Option String → Value
  | optN : Option Nat → Value
deriving DecidableEq, Repr

/-- `ExecutionNode.to_dict` — `dataclasses.asdict` in field order with
`state` replaced by its string value. -/
def ExecutionNode.toDict (node : ExecutionNode) : List (String × Value) :=
  [ ("id", .s node.id)
  , ("role", .s node.role)
  , ("task_id", .s node.taskId)
  , ("state", .s node.state.value)
  , ("upstream_nodes", .strList node.upstreamNodes)
  , ("downstream_nodes", .strList node.downstreamNodes)
  , ("prompt", .s node.prompt)
  , ("context_data", .dict node.contextData)
  , ("result", .opt node.result)
  , ("error", .opt node.error)
  , ("execution_time", .n node.executionTime)
  , ("created_at", .n node.createdAt)
  , ("started_at", .optN node.startedAt)
  , ("completed_at", .optN node.completedAt) ]

/-- `BridgeRequest` from `global_bridge.py`. -/
structure BridgeRequest where
  requestId : String
  sourceNode : String
  targetNode : String
  query : String
  intent : String
  scope : String
  consentToken : String
deriving DecidableEq, Repr

/-- `BridgeResponse` from `global_bridge.py`; `data` is `None` or a
dictionary. -/
structure BridgeResponse where
  requestId : String
  success : Bool
  data : Option (List (String × Value))
  sourceNamespaces : List String
  processingTime : Nat
deriving DecidableEq, Repr

/-- One entry of `GlobalBridgeScheduler.audit_log` (built in
`_log_audit`). -/
structure AuditEntry where
  requestId : String
  source : String
  target : String
  intent : String
  scope : String
  decision : String
  reason : String
  processingTime : Nat
deriving DecidableEq, Repr

/-- The mutable state of one `GlobalBridgeScheduler`: the
`StateFlagManager`'s node dictionary (insertion-ordered), the sequence
of recorded state transitions `(node, old, new)` (each `update_state`
call logs one and dispatches the listeners), and the bridge audit log. -/
structure GBS where
  nodes : List ExecutionNode := []
  events : List (String × NodeState × NodeState) := []
  auditLog : List AuditEntry := []
deriving DecidableEq, Repr

/-- Dictionary lookup `self.nodes.get(node_id)`. -/
def findNode (ns : List ExecutionNode) (i : String) : Option ExecutionNode :=
  ns.find? (fun n => decide (n.id = i))

/-- Point update of the node stored under id `i` (Python mutates the
object in place inside the dictionary). -/
def updNode (ns : List ExecutionNode) (i : String) (f : ExecutionNode → ExecutionNode) :
    List ExecutionNode :=
  ns.map (fun n => if n.id = i then f n else n)

/-- The field writes performed by `StateFlagManager.update_state`:
the new state, plus `started_at` on entering EXECUTING and
`completed_at` on entering COMPLETED/FAILED. -/
def applyStateStamp (now : Nat) (s : NodeState) (n : ExecutionNode) : ExecutionNode :=
  match s with
  | .executing => { n with state := s, startedAt := some now }
  | .completed => { n with state := s, completedAt := some now }
  | .failed => { n with state := s, completedAt := some now }
  | _ => { n with state := s }

/-- `StateFlagManager.update_state` without listener dispatch: unknown
ids are rejected, otherwise the state and timestamps are written and the
transition `(id, old, new)` is recorded.  (For every non-COMPLETED new
state the registered listener `_on_state_change` is a no-op, so this is
also the full effect of `update_state` in that case.) -/
def updateStateCore (g : GBS) (i : String) (s : NodeState) : GBS :=
  match findNode g.nodes i with
  | none => g
  | some n =>
      { g with
        nodes := updNode g.nodes i (applyStateStamp g.events.length s)
        events := g.events ++ [(i, n.state, s)] }

/-- `InstantTriggerCoordinator._trigger_downstream_nodes`' readiness
predicate: every upstream id must resolve to a registered node in state
COMPLETED (`nodes.get(up_id) and nodes[up_id].state == COMPLETED`). -/
def allDepsCompleted (ns : List ExecutionNode) (v : ExecutionNode) : Bool :=
  v.upstreamNodes.all (fun u =>
    match findNode ns u with
    | some un => decide (un.state = .completed)
    | none => false)

/-- `GlobalBridgeScheduler.generate_prompt`: collect the upstream
results that are present and truthy, and render them into the task
prompt.  The `json.dumps` formatting is rendered as a plain line per
upstream entry; no claim depends on the precise text. -/
def generatePrompt (ns : List ExecutionNode) (node : ExecutionNode) : String :=
  let ups : List String := node.upstreamNodes.filterMap (fun upId =>
    match findNode ns upId with
    | some un =>
        match un.result with
        | some r => if r = "" then none else
            some ("node=" ++ upId ++ " role=" ++ un.role ++ " result=" ++ r)
        | none => none
    | none => none)
  "你的角色: " ++ node.role ++ "\n任务ID: " ++ node.taskId ++
    "\n\n上游任务结果:\n" ++ String.intercalate "\n" ups ++
    "\n\n请基于上游结果执行你的任务。"

/-- One iteration of the loop body of `_trigger_downstream_nodes`: look
up the downstream node, and if all of its upstream dependencies are
completed, write its prompt (the generator is `generate_prompt`, as
installed by `execute_dag`) and set its state to READY.  Note the code
performs no check of the downstream node's current state. -/
def triggerStep (acc : GBS) (did : String) : GBS :=
  match findNode acc.nodes did with
  | none => acc
  | some dn =>
      if allDepsCompleted acc.nodes dn then
        let acc1 := { acc with
          nodes := updNode acc.nodes did (fun n => { n with prompt := generatePrompt acc.nodes dn }) }
        updateStateCore acc1 did .ready
      else acc

/-- `InstantTriggerCoordinator._trigger_downstream_nodes`: iterate over
the completed node's downstream list. -/
def triggerDownstream (g : GBS) (cid : String) : GBS :=
  match findNode g.nodes cid with
  | none => g
  | some cn => cn.downstreamNodes.foldl triggerStep g

/-- `StateFlagManager.update_state` with its listener dispatch: the one
registered listener is `InstantTriggerCoordinator._on_state_change`,
which triggers the downstream evaluation exactly when the new state is
COMPLETED. -/
def updateState (g : GBS) (i : String) (s : NodeState) : GBS :=
  let g1 := updateStateCore g i s
  if s = .completed then triggerDownstream g1 i else g1

/-- `GlobalBridgeScheduler._validate_consent_token`: reject empty tokens
and tokens shorter than 8 characters. -/
def validateConsentToken (req : BridgeRequest) : Bool :=
  if req.consentToken = "" ∨ req.consentToken.length < 8 then false else true

/-- The result of `_check_bridge_policy`. -/
structure PolicyResult where
  allowed : Bool
  reason : String
deriving DecidableEq, Repr

/-- `GlobalBridgeScheduler._check_bridge_policy`: the default policy
allows every request. -/
def checkBridgePolicy (_req : BridgeRequest) : PolicyResult :=
  { allowed := true, reason := "" }

/-- `GlobalBridgeScheduler._filter_by_scope`: PUBLIC returns the full
`to_dict` record, SHARED pops the `prompt` key, anything else (PRIVATE)
returns only `{id, state}`. -/
def filterByScope (node : ExecutionNode) (scope : String) : List (String × Value) :=
  if scope = "public" then node.toDict
  else if scope = "shared" then node.toDict.filter (fun kv => ¬(kv.1 = "prompt"))
  else [("id", .s node.id), ("state", .s node.state.value)]

/-- `GlobalBridgeScheduler._log_audit`: append one audit entry; the
recorded processing time is the response's when one is given, else 0. -/
def logAudit (g : GBS) (req : BridgeRequest) (resp : Option BridgeResponse)
    (decision reason : String) : GBS :=
  { g with auditLog := g.auditLog ++
      [{ requestId := req.requestId
       , source := req.sourceNode
       , target := req.targetNode
       , intent := req.intent
       , scope := req.scope
       , decision := decision
       , reason := reason
       , processingTime := (resp.map (·.processingTime)).getD 0 }] }

/-- `GlobalBridgeScheduler.bridge_context`.  Control flow as in the
source: an invalid token returns a failure response immediately (no
audit entry); a policy denial logs DENIED and returns a failure; a
missing source or target node returns a failure (no audit entry);
otherwise the target is filtered by scope, ALLOWED is logged and a
success response returned.  Wall-clock processing times are modelled
as 0. -/
def bridgeContext (g : GBS) (req : BridgeRequest) : GBS × BridgeResponse :=
  if ¬(validateConsentToken req) then
    (g, { requestId := req.requestId, success := false, data := none
        , sourceNamespaces := [], processingTime := 0 })
  else
    let policy := checkBridgePolicy req
    if ¬policy.allowed then
      let resp : BridgeResponse :=
        { requestId := req.requestId, success := false
        , data := some [("error", .s policy.reason)]
        , sourceNamespaces := [], processingTime := 0 }
      (logAudit g req none "DENIED" policy.reason, resp)
    else
      match findNode g.nodes req.sourceNode, findNode g.nodes req.targetNode with
      | some _, some target =>
          let resp : BridgeResponse :=
            { requestId := req.requestId, success := true
            , data := some (filterByScope target req.scope)
            , sourceNamespaces := [req.targetNode], processingTime := 0 }
          (logAudit g req (some resp) "ALLOWED" "", resp)
      | _, _ =>
          (g, { requestId := req.requestId, success := false
              , data := some [("error", .s "Node not found")]
              , sourceNamespaces := [], processingTime := 0 })

/-- `StateFlagManager.register_node` under `register_nodes`: dictionary
assignment `self.nodes[node.id] = node` (replace in place, else append). -/
def registerNode (ns : List ExecutionNode) (n : ExecutionNode) : List ExecutionNode :=
  if ns.any (fun m => decide (m.id = n.id)) then updNode ns n.id (fun _ => n)
  else ns ++ [n]

/-- `GlobalBridgeScheduler.register_nodes` (the listener re-registration
it also performs is discussed with claim C1). -/
def registerNodes (g : GBS) (l : List ExecutionNode) : GBS :=
  { g with nodes := l.foldl registerNode g.nodes }

/-- The inner loop body of `set_node_dependencies`: append `nodeId` to
a registered upstream node's downstream list when not already present
(`if node_id not in ...downstream_nodes: ...append(node_id)`). -/
def addDownstreamRef (nodeId : String) (a : GBS) (upId : String) : GBS :=
  if (findNode a.nodes upId).isSome then
    { a with nodes := updNode a.nodes upId (fun n =>
        if nodeId ∈ n.downstreamNodes then n
        else { n with downstreamNodes := n.downstreamNodes ++ [nodeId] }) }
  else a

/-- One iteration of `set_node_dependencies`: for a registered
`node_id`, overwrite its upstream list with `upstream_ids` and run the
inner loop over `upstream_ids`. -/
def setDepsStep (acc : GBS) (kv : String × List String) : GBS :=
  if (findNode acc.nodes kv.1).isSome then
    kv.2.foldl (addDownstreamRef kv.1)
      { acc with nodes := updNode acc.nodes kv.1 (fun n => { n with upstreamNodes := kv.2 }) }
  else acc

/-- `GlobalBridgeScheduler.set_node_dependencies`: for each
`(node_id, upstream_ids)` entry of the dependency dictionary, overwrite
the node's upstream list and append the node to each registered upstream
node's downstream list when not already present. -/
def setNodeDependencies (g : GBS) (deps : List (String × List String)) : GBS :=
  deps.foldl setDepsStep g

/-- Write a node's `result` and `execution_time` (the wall-clock duration
is modelled as 1). -/
def setResult (g : GBS) (i : String) (r : String) : GBS :=
  { g with nodes := updNode g.nodes i (fun m => { m with result := some r, executionTime := 1 }) }

/-- Write a node's `error` and `execution_time`. -/
def setError (g : GBS) (i : String) (e : String) : GBS :=
  { g with nodes := updNode g.nodes i (fun m => { m with error := some e, executionTime := 1 }) }

/-- `GlobalBridgeScheduler._execute_node`: run the executor on the node;
on a result, record it and transition to COMPLETED (which fires the
trigger coordinator); on an exception, record the error and transition
to FAILED. -/
def executeNode (exec : ExecutionNode → Except String String) (g : GBS) (i : String) : GBS :=
  match findNode g.nodes i with
  | none => g
  | some n =>
      match exec n with
      | .ok r => updateState (setResult g i r) i .completed
      | .error e => updateState (setError g i e) i .failed

/-- The ids of the currently READY nodes, in store order
(`ready_nodes` in `execute_dag`). -/
def readyIds (g : GBS) : List String :=
  (g.nodes.filter (fun n => decide (n.state = .ready))).map (·.id)

/-- The `execute_dag` dispatch: mark every ready node EXECUTING, then
the `asyncio.gather` completions land one by one (store order). -/
def runRound (exec : ExecutionNode → Except String String) (g : GBS) : GBS :=
  let l := readyIds g
  let g1 := l.foldl (fun acc i => updateState acc i .executing) g
  l.foldl (executeNode exec) g1

/-- The `execute_dag` completion test: `all(n.state in [COMPLETED,
FAILED] ...)` (note BLOCKED is not checked by the code). -/
def allDoneCheck (g : GBS) : Bool :=
  g.nodes.all (fun n => decide (n.state = .completed) || decide (n.state = .failed))

/-- The `for _ in range(max_iterations)` loop of `execute_dag`: each
iteration collects the READY set; when empty it breaks if all nodes are
COMPLETED/FAILED and otherwise sleeps and retries; when non-empty it
dispatches the round.  Returns the final state together with the number
of dispatching rounds performed (iterations that executed at least one
node). -/
def execLoop (exec : ExecutionNode → Except String String) : Nat → GBS → GBS × Nat
  | 0, g => (g, 0)
  | Nat.succ fuel, g =>
      if (readyIds g).isEmpty then
        if allDoneCheck g then (g, 0)
        else execLoop exec fuel g
      else
        let p := execLoop exec fuel (runRound exec g)
        (p.1, p.2 + 1)

/-- The roots seeding of `execute_dag`: every input node with an empty
upstream list is set READY. -/
def seedRoots (g : GBS) (l : List ExecutionNode) : GBS :=
  l.foldl (fun acc n => if n.upstreamNodes.isEmpty then updateState acc n.id .ready else acc) g

/-- The final status map of `execute_dag`:
`{id: {state, result, error, execution_time}}`. -/
def collectResults (g : GBS) : List (String × NodeState × Option String × Option String × Nat) :=
  g.nodes.map (fun n => (n.id, n.state, n.result, n.error, n.executionTime))

/-- `GlobalBridgeScheduler.execute_dag`: register the nodes, seed the
roots, and run the loop with the iteration cap `len(dag_nodes) * 2`.
Returns the final scheduler state and the dispatch-round count. -/
def executeDag (exec : ExecutionNode → Except String String) (g : GBS)
    (dagNodes : List ExecutionNode) : GBS × Nat :=
  let g1 := registerNodes g dagNodes
  let g2 := seedRoots g1 dagNodes
  execLoop exec (2 * dagNodes.length) g2

/-! ## `core/dag_scheduler/task_decomposer.py` — `TaskDAG` -/

/-- `TaskComplexity` from `task_decomposer.py`. -/
inductive TaskComplexity where
  | trivial
  | simple
  | moderate
  | complex
  | expert
deriving DecidableEq, Repr

/-- `TaskType` from `task_decomposer.py`. -/
inductive TaskType where
  | analysis
  | development
  | design
  | documentation
  | testing
  | research
  | integration
  | optimization
deriving DecidableEq, Repr

/-- `TaskState` from `task_decomposer.py`. -/
inductive TaskState where
  | pending
  | ready
  | running
  | completed
  | failed
  | blocked
deriving DecidableEq, Repr

/-- `TaskNode` from `task_decomposer.py`. -/
structure TaskNode where
  id : String
  title : String
  description : String
  taskType : TaskType
  complexity : TaskComplexity
  estimatedTimeMinutes : Nat
  requiredRole : String
  dependencies : List String
  parallelGroup : Option String
  priority : Nat
  skillsRequired : List String
  contextRequirements : List (String × String)
  deliverables : List String
  state : TaskState := .pending
  contextLevel : String := "L3"
  contextData : List (String × String) := []
deriving DecidableEq, Repr

/-- Python's substring test `sub in hay`. -/
def strIn (sub hay : String) : Bool :=
  hay.toList.tails.any (fun t => sub.toList.isPrefixOf t)

/-- `TaskDAG._find_node_by_title`: return the first node whose title
CONTAINS the given string (`if title in node.title`) — a substring
match, not an identifier lookup. -/
def findNodeByTitle (nodes : List TaskNode) (title : String) : Option TaskNode :=
  nodes.find? (fun node => strIn title node.title)

/-- `TaskDAG` from `task_decomposer.py`; the node dictionary is its
insertion-ordered value list. -/
structure TaskDAG where
  sessionId : String
  totalNodes : Nat
  parallelGroups : List (String × List String)
  criticalPath : List String
  estimatedTotalTime : Nat
  parallelizableRatio : Rat := 0
  nodes : List TaskNode
  executionPlan : List (String × String)
  contextHierarchy : List (String × String) := []
deriving DecidableEq, Repr

/-- `TaskDAG.get_ready_tasks`: the PENDING nodes all of whose
dependencies — resolved by the title-substring lookup, with unresolvable
dependencies silently skipped — are COMPLETED. -/
def getReadyTasks (dag : TaskDAG) : List TaskNode :=
  dag.nodes.filter (fun node =>
    decide (node.state = .pending) &&
      node.dependencies.all (fun dep =>
        match findNodeByTitle dag.nodes dep with
        | some dn => decide (dn.state = .completed)
        | none => true))

/-- `TaskDAG._trigger_downstream_ready_check`: every PENDING node with a
dependency string containing the completed node's title
(`completed_node.title in dep`) has all of its dependencies re-resolved
by title; if all resolve and are COMPLETED the node is set READY. -/
def triggerDownstreamReadyCheck (nodes : List TaskNode) (completedTaskId : String) :
    List TaskNode :=
  match nodes.find? (fun n => decide (n.id = completedTaskId)) with
  | none => nodes
  | some completedNode =>
      nodes.map (fun node =>
        if node.state = .pending ∧
            node.dependencies.any (fun dep => strIn completedNode.title dep) ∧
            node.dependencies.all (fun dep =>
              match findNodeByTitle nodes dep with
              | some dn => decide (dn.state = .completed)
              | none => false) then
          { node with state := .ready }
        else node)

/-- `TaskDAG.update_task_state`: write the new state and, when it is
COMPLETED, run the downstream ready check. -/
def updateTaskState (nodes : List TaskNode) (taskId : String) (newState : TaskState) :
    List TaskNode :=
  if nodes.any (fun n => decide (n.id = taskId)) then
    let ns1 := nodes.map (fun n => if n.id = taskId then { n with state := newState } else n)
    if newState = .completed then triggerDownstreamReadyCheck ns1 taskId else ns1
  else nodes

/-! ## `core/context_manager/hierarchical_context.py` -/

/-- `ContextLevel` (L1 system / L2 project / L3 node / L4 session). -/
inductive ContextLevel where
  | l1System
  | l2Project
  | l3Node
  | l4Session
deriving DecidableEq, Repr

/-- The wire value of a level. -/
def ContextLevel.value : ContextLevel → String
  | .l1System => "L1"
  | .l2Project => "L2"
  | .l3Node => "L3"
  | .l4Session => "L4"

/-- `ContextScope` (`private`/`shared`/`public`). -/
inductive ContextScope where
  | priv
  | shared
  | pub
deriving DecidableEq, Repr

/-- `ContextRecord` from `hierarchical_context.py`; creation and access
times are abstract clock readings in minutes, so that
`created + timedelta(minutes=ttl)` is `createdAt + ttl`. -/
structure ContextRecord where
  id : String
  level : ContextLevel
  scope : ContextScope
  content : String
  metadata : List (String × String)
  projectId : Option String := none
  nodeId : Option String := none
  sessionId : Option String := none
  createdAt : Nat := 0
  ttlMinutes : Option Nat := none
  lastAccessed : Option Nat := none
  isolated : Bool := true
deriving DecidableEq, Repr

/-- `ContextRecord.is_expired` at the given current time. -/
def ContextRecord.isExpired (r : ContextRecord) (now : Nat) : Bool :=
  match r.ttlMinutes with
  | none => false
  | some t => decide (r.createdAt + t < now)

/-- `ContextLayer.TTL_CONFIG`. -/
def ttlConfig : ContextLevel → Option Nat
  | .l1System => none
  | .l2Project => some 120
  | .l3Node => some 30
  | .l4Session => some 10

/-- `ContextLayer`: one level's record dictionary (insertion-ordered,
assignment replaces in place). -/
structure ContextLayer where
  level : ContextLevel
  defaultTtl : Option Nat
  records : List (String × ContextRecord) := []
deriving DecidableEq, Repr

/-- `ContextLayer.add_record`: default the TTL from `TTL_CONFIG` when
unset, then `self.records[record.id] = record`. -/
def ContextLayer.addRecord (layer : ContextLayer) (r : ContextRecord) : ContextLayer :=
  let r1 := if r.ttlMinutes = none then { r with ttlMinutes := ttlConfig layer.level } else r
  if layer.records.any (fun kv => decide (kv.1 = r1.id)) then
    { layer with records := layer.records.map (fun kv => if kv.1 = r1.id then (kv.1, r1) else kv) }
  else
    { layer with records := layer.records ++ [(r1.id, r1)] }

/-- `ContextLayer.cleanup_expired`: delete the expired records, return
how many were deleted. -/
def ContextLayer.cleanupExpired (layer : ContextLayer) (now : Nat) : ContextLayer × Nat :=
  let expired := layer.records.filter (fun kv => kv.2.isExpired now)
  ({ layer with records := layer.records.filter (fun kv => !(kv.2.isExpired now)) },
    expired.length)

/-- `HierarchicalContextManager` (in-memory part; the optional SQLite
persistence is out of the claims' scope): the four layers plus the
project/node record-id indexes. -/
structure HCM where
  l1 : ContextLayer := { level := .l1System, defaultTtl := ttlConfig .l1System }
  l2 : ContextLayer := { level := .l2Project, defaultTtl := ttlConfig .l2Project }
  l3 : ContextLayer := { level := .l3Node, defaultTtl := ttlConfig .l3Node }
  l4 : ContextLayer := { level := .l4Session, defaultTtl := ttlConfig .l4Session }
  projectContexts : List (String × List String) := []
  nodeContexts : List (String × List String) := []
deriving DecidableEq, Repr

/-- The layer dictionary `self.layers[level]`. -/
def HCM.layer (m : HCM) : ContextLevel → ContextLayer
  | .l1System => m.l1
  | .l2Project => m.l2
  | .l3Node => m.l3
  | .l4Session => m.l4

/-- Replace the layer stored under a level. -/
def HCM.setLayer (m : HCM) : ContextLevel → ContextLayer → HCM
  | .l1System, layer => { m with l1 := layer }
  | .l2Project, layer => { m with l2 := layer }
  | .l3Node, layer => { m with l3 := layer }
  | .l4Session, layer => { m with l4 := layer }

/-- Stand-in for `hashlib.sha256(content.encode()).hexdigest()[:12]`:
an executable deterministic digest (the claims rely only on the digest
being a function of the content, which is true of SHA-256). -/
def contentHash (content : String) : String :=
  content

/-- The record id built by `create_context`:
`f"{level.value}_{content_hash}_{timestamp}"`. -/
def genRecordId (level : ContextLevel) (content : String) (now : Nat) : String :=
  level.value ++ "_" ++ contentHash content ++ "_" ++ toString now

/-- Set-insert a record id into an index dictionary
(`self.node_contexts[node_id].add(record_id)`). -/
def indexAdd (idx : List (String × List String)) (key rid : String) :
    List (String × List String) :=
  if idx.any (fun kv => decide (kv.1 = key)) then
    idx.map (fun kv =>
      if kv.1 = key then (kv.1, if rid ∈ kv.2 then kv.2 else kv.2 ++ [rid]) else kv)
  else idx ++ [(key, [rid])]

/-- `HierarchicalContextManager.create_context` at abstract time `now`:
build the record with the generated id, add it to its level's layer,
and index it under its project and node ids. -/
def createContext (m : HCM) (now : Nat) (level : ContextLevel) (content : String)
    (metadata : List (String × String)) (scope : ContextScope)
    (projectId nodeId sessionId : Option String) (isolated : Bool) : HCM × ContextRecord :=
  let rid := genRecordId level content now
  let r : ContextRecord :=
    { id := rid, level := level, scope := scope, content := content
    , metadata := metadata, projectId := projectId, nodeId := nodeId
    , sessionId := sessionId, createdAt := now, isolated := isolated }
  let m1 := m.setLayer level ((m.layer level).addRecord r)
  let m2 := match projectId with
    | some pid => { m1 with projectContexts := indexAdd m1.projectContexts pid rid }
    | none => m1
  let m3 := match nodeId with
    | some nid => { m2 with nodeContexts := indexAdd m2.nodeContexts nid rid }
    | none => m2
  (m3, r)

/-- `HierarchicalContextManager.get_context`: search the four layers in
order; a found record is returned only when not expired.  (The
`last_accessed` write-back performed by `ContextLayer.get_record` is
omitted; no claim observes it.) -/
def getContext (m : HCM) (now : Nat) (rid : String) : Option ContextRecord :=
  let fromLayer := fun (layer : ContextLayer) =>
    match layer.records.find? (fun kv => decide (kv.1 = rid)) with
    | some kv => if kv.2.isExpired now then none else some kv.2
    | none => none
  (fromLayer m.l1).orElse (fun _ =>
    (fromLayer m.l2).orElse (fun _ =>
      (fromLayer m.l3).orElse (fun _ => fromLayer m.l4)))

/-- `HierarchicalContextManager.get_node_context`: the live, isolated
records indexed under the node id. -/
def getNodeContext (m : HCM) (now : Nat) (nodeId : String) : List ContextRecord :=
  match m.nodeContexts.find? (fun kv => decide (kv.1 = nodeId)) with
  | none => []
  | some kv =>
      kv.2.filterMap (fun rid =>
        match getContext m now rid with
        | some r => if r.isolated then some r else none
        | none => none)

/-- The four per-level lists returned by `get_visible_context`. -/
structure VisibleContext where
  l1V : List ContextRecord
  l2V : List ContextRecord
  l3V : List ContextRecord
  l4V : List ContextRecord
deriving DecidableEq, Repr

/-- `HierarchicalContextManager.get_visible_context`: L1 is globally
visible; L2 is visible to the same project when non-isolated or
non-private; L3 only to the owning node; L4 to the same session — all
filtered for expiry. -/
def getVisibleContext (m : HCM) (now : Nat) (nodeId : String)
    (projectId sessionId : Option String) : VisibleContext :=
  { l1V := (m.l1.records.map (·.2)).filter (fun r => !(r.isExpired now))
  , l2V := match projectId with
      | some pid => (m.l2.records.map (·.2)).filter (fun r =>
          !(r.isExpired now) && decide (r.projectId = some pid) &&
            (!(r.isolated) || !(decide (r.scope = .priv))))
      | none => []
  , l3V := (m.l3.records.map (·.2)).filter (fun r =>
      !(r.isExpired now) && decide (r.nodeId = some nodeId))
  , l4V := match sessionId with
      | some sid => (m.l4.records.map (·.2)).filter (fun r =>
          !(r.isExpired now) && decide (r.sessionId = some sid))
      | none => [] }

/-- `HierarchicalContextManager.cleanup_expired` over all four layers. -/
def HCM.cleanupExpired (m : HCM) (now : Nat) : HCM × List (String × Nat) :=
  let p1 := m.l1.cleanupExpired now
  let p2 := m.l2.cleanupExpired now
  let p3 := m.l3.cleanupExpired now
  let p4 := m.l4.cleanupExpired now
  ({ m with l1 := p1.1, l2 := p2.1, l3 := p3.1, l4 := p4.1 },
    [("L1", p1.2), ("L2", p2.2), ("L3", p3.2), ("L4", p4.2)])

/-! ## Concrete fixtures used by the claim theorems -/

/-- An execution capability that always returns a result. -/
def exOk : ExecutionNode → Except String String :=
  fun n => .ok ("done " ++ n.id)

/-- An execution capability that raises exactly on node `B`. -/
def exFailB : ExecutionNode → Except String String :=
  fun n => if n.id = "B" then .error "boom" else .ok ("done " ++ n.id)

/-- The four-node graph `{A→B, A→C, B→D}` of the spec's
failure-isolation scenario, with the downstream inverse maintained. -/
def dagFail : List ExecutionNode :=
  [ { id := "A", role := "architect", taskId := "t1", downstreamNodes := ["B", "C"] }
  , { id := "B", role := "developer", taskId := "t2", upstreamNodes := ["A"], downstreamNodes := ["D"] }
  , { id := "C", role := "developer", taskId := "t3", upstreamNodes := ["A"] }
  , { id := "D", role := "quality", taskId := "t4", upstreamNodes := ["B"] } ]

/-- A node whose single upstream reference resolves to no registered
node, so it can never become READY nor terminal. -/
def stalledNode : ExecutionNode :=
  { id := "X", role := "r", taskId := "t", upstreamNodes := ["ghost"] }

/-- Parents `B`, `C` already COMPLETED (with results) and dependent `D`
still IDLE: the state just after both parents' completion transitions
have been recorded but before any trigger evaluation runs. -/
def gDiamond : GBS :=
  { nodes :=
    [ { id := "B", role := "developer", taskId := "t2", state := .completed
      , result := some "rb", downstreamNodes := ["D"] }
    , { id := "C", role := "developer", taskId := "t3", state := .completed
      , result := some "rc", downstreamNodes := ["D"] }
    , { id := "D", role := "quality", taskId := "t4", upstreamNodes := ["B", "C"] } ] }

/-- Parents `B`, `C` EXECUTING and dependent `D` IDLE: the state of the
round in which both parents are in flight. -/
def gDiamondExec : GBS :=
  { nodes :=
    [ { id := "B", role := "developer", taskId := "t2", state := .executing
      , downstreamNodes := ["D"] }
    , { id := "C", role := "developer", taskId := "t3", state := .executing
      , downstreamNodes := ["D"] }
    , { id := "D", role := "quality", taskId := "t4", upstreamNodes := ["B", "C"] } ] }

/-- A scheduler with two registered nodes, used for bridge requests. -/
def gBridge : GBS :=
  { nodes :=
    [ { id := "alpha", role := "architect", taskId := "t1" }
    , { id := "beta", role := "developer", taskId := "t2", prompt := "secret prompt" } ] }

/-- A bridge request between the two registered nodes with a 5-character
consent token and scope SHARED. -/
def reqShortToken : BridgeRequest :=
  { requestId := "r1", sourceNode := "alpha", targetNode := "beta", query := "q"
  , intent := "status check", scope := "shared", consentToken := "12345" }

/-- The same request with a valid 8-character token. -/
def reqValidToken : BridgeRequest :=
  { reqShortToken with requestId := "r2", consentToken := "12345678" }

/-- Two registered nodes `u`, `v` with no edges. -/
def gUV : GBS :=
  { nodes :=
    [ { id := "u", role := "r", taskId := "t1" }
    , { id := "v", role := "r", taskId := "t2" } ] }

/-- The store after `set_node_dependencies({v: [u]})` followed by
`set_node_dependencies({v: []})`. -/
def gUV2 : GBS :=
  setNodeDependencies (setNodeDependencies gUV [("v", ["u"])]) [("v", [])]

/-- Task nodes for the title-substring hazard: `task_001` depends on the
title `"design"`; `task_002` is titled `"design B"` and COMPLETED;
`task_003` is titled exactly `"design"` and still PENDING. -/
def tIntegration : TaskNode :=
  { id := "task_001", title := "integration", description := "integrate"
  , taskType := .integration, complexity := .moderate, estimatedTimeMinutes := 10
  , requiredRole := "developer", dependencies := ["design"], parallelGroup := none
  , priority := 1, skillsRequired := [], contextRequirements := [], deliverables := [] }

def tDesignB : TaskNode :=
  { tIntegration with
    id := "task_002", title := "design B", dependencies := [], state := .completed }

def tDesignExact : TaskNode :=
  { tIntegration with id := "task_003", title := "design", dependencies := [] }

def dagTitles : TaskDAG :=
  { sessionId := "s", totalNodes := 3, parallelGroups := [], criticalPath := []
  , estimatedTotalTime := 0, nodes := [tIntegration, tDesignB, tDesignExact]
  , executionPlan := [] }

/-- A context manager holding one L3 record owned by node `A`, created
at time 5 with content `"shared prompt"`. -/
def mgrA : HCM :=
  (createContext {} 5 .l3Node "shared prompt" [] .priv none (some "A") none true).1

/-- The same manager after node `B` creates an L3 record with the same
content at the same timestamp — the generated record id collides and
replaces `A`'s record. -/
def mgrAB : HCM :=
  (createContext mgrA 5 .l3Node "shared prompt" [] .priv none (some "B") none true).1

/-! ## Claim C5 — bridge scope filtering -/

/-- C5 (confirmed): for every node record, `_filter_by_scope` returns
for scope `public` the full `to_dict` record, for scope `shared`
exactly the full record's entries minus the `prompt` field, and for
scope `private` exactly the two-field record `{id, state}`. -/
theorem C5_scope_filter (node : ExecutionNode) :
    filterByScope node "public" = node.toDict ∧
    (∀ kv, kv ∈ filterByScope node "shared" ↔ kv ∈ node.toDict ∧ kv.1 ≠ "prompt") ∧
    filterByScope node "private" = [("id", .s node.id), ("state", .s node.state.value)] := by
  refine ⟨rfl, ?_, rfl⟩
  intro kv
  simp [filterByScope, List.mem_filter]

/-! ## Claim C3 — audit coverage of the bridge operation -/

/-- C3 (counterexample): the bridge request `reqShortToken` (5-character
consent token, scope SHARED, both nodes registered) yields
`success = false` and `data = null`, but the audit log gains zero
entries — not one DENIED entry as claimed. -/
theorem C3_counterexample :
    (bridgeContext gBridge reqShortToken).2.success = false ∧
    (bridgeContext gBridge reqShortToken).2.data = none ∧
    (bridgeContext gBridge reqShortToken).1.auditLog = gBridge.auditLog := by
  refine ⟨rfl, rfl, rfl⟩

/-! ## Claim C8 — dependency resolution by title substring -/

/-- C8 (code bug): in `dagTitles` the dependency string `"design"` of
`task_001` is resolved by `_find_node_by_title`'s substring match to the
COMPLETED node titled `"design B"` (`task_002`), not to the PENDING node
titled exactly `"design"` (`task_003`); consequently `get_ready_tasks`
reports `task_001` ready even though its intended dependency is not
completed. -/
theorem C8_substring_resolution :
    (findNodeByTitle dagTitles.nodes "design").map (·.id) = some "task_002" ∧
    (dagTitles.nodes.find? (fun n => decide (n.title = "design"))).map (·.state) =
      some .pending ∧
    "task_001" ∈ (getReadyTasks dagTitles).map (·.id) := by
  refine ⟨rfl, rfl, ?_⟩
  decide

/-! ## Claim C1 — exactly-once promotion of a dependent -/

/-- C1 (counterexample): with both parents `B`, `C` of `D` COMPLETED,
running the two parents' trigger evaluations in sequence
(`_trigger_downstream_nodes("B")` then `_trigger_downstream_nodes("C")`)
makes the second evaluator — which observes all of `D`'s upstream nodes
COMPLETED and finds `D` already READY — re-issue the READY transition
(a recorded `(D, ready, ready)` state change and a payload rewrite)
instead of no-opping: the code never checks the dependent's current
state. -/
theorem C1_counterexample :
    (triggerDownstream (triggerDownstream gDiamond "B") "C").events =
      [("D", .idle, .ready), ("D", .ready, .ready)] := by
  decide

/-- C1 (amended): under the scheduler's synchronous composition — each
parent's trigger evaluation runs exactly once, inside that parent's own
completion transition — the dependent `D` is promoted to READY exactly
once in either completion order, because only the later completion's
evaluation observes all upstream nodes COMPLETED; the evaluator performs
no already-READY check, so the exactly-once property rests on this
ordering, not on a state guard (see the counterexample). -/
theorem C1_exactly_once :
    (let gBC := updateState (setResult gDiamondExec "C" "rc") "C" .completed
     let gB2 := updateState (setResult gBC "B" "rb") "B" .completed
     (gB2.events.filter (fun e => decide (e.1 = "D") && decide (e.2.2 = .ready))).length = 1 ∧
     (findNode gB2.nodes "D").map (·.state) = some .ready) ∧
    (let gCB := updateState (setResult gDiamondExec "B" "rb") "B" .completed
     let gC2 := updateState (setResult gCB "C" "rc") "C" .completed
     (gC2.events.filter (fun e => decide (e.1 = "D") && decide (e.2.2 = .ready))).length = 1 ∧
     (findNode gC2.nodes "D").map (·.state) = some .ready) := by
  constructor
  · exact ⟨by decide, by decide⟩
  · exact ⟨by decide, by decide⟩

/-! ## Claim C4 — dependents of a FAILED node -/

/-- C4 (counterexample): running `execute_dag` on `{A→B, A→C, B→D}`
with `B`'s execution raising, the final status map leaves `D` in state
IDLE — it is never moved to BLOCKED — while the independent sibling `C`
reaches COMPLETED. -/
theorem C4_counterexample :
    collectResults (executeDag exFailB {} dagFail).1 =
      [ ("A", .completed, some "done A", none, 1)
      , ("B", .failed, none, some "boom", 1)
      , ("C", .completed, some "done C", none, 1)
      , ("D", .idle, none, none, 0) ] := by
  decide

/-! ## Observation helpers and basic lemmas -/

/-- The state of the node registered under `i`, if any. -/
def stateOf (g : GBS) (i : String) : Option NodeState :=
  (findNode g.nodes i).map (·.state)

/-- The upstream list of the node registered under `i`, if any. -/
def upstreamOf (g : GBS) (i : String) : Option (List String) :=
  (findNode g.nodes i).map (·.upstreamNodes)

/-- The readiness predicate of the trigger coordinator, reformulated on
an upstream id list: every id resolves to a COMPLETED registered node. -/
def depsDone (g : GBS) (ups : List String) : Bool :=
  ups.all (fun u =>
    match stateOf g u with
    | some s => decide (s = .completed)
    | none => false)

theorem allDepsCompleted_eq_depsDone (g : GBS) (v : ExecutionNode) :
    allDepsCompleted g.nodes v = depsDone g v.upstreamNodes := by
  unfold allDepsCompleted depsDone stateOf
  induction v.upstreamNodes with
  | nil => rfl
  | cons u us ih =>
      simp only [List.all_cons, ih]
      cases findNode g.nodes u <;> rfl

theorem applyStateStamp_id (now : Nat) (s : NodeState) (n : ExecutionNode) :
    (applyStateStamp now s n).id = n.id := by
  cases s <;> rfl

theorem applyStateStamp_state (now : Nat) (s : NodeState) (n : ExecutionNode) :
    (applyStateStamp now s n).state = s := by
  cases s <;> rfl

theorem applyStateStamp_upstream (now : Nat) (s : NodeState) (n : ExecutionNode) :
    (applyStateStamp now s n).upstreamNodes = n.upstreamNodes := by
  cases s <;> rfl

theorem applyStateStamp_downstream (now : Nat) (s : NodeState) (n : ExecutionNode) :
    (applyStateStamp now s n).downstreamNodes = n.downstreamNodes := by
  cases s <;> rfl

theorem findNode_updNode (ns : List ExecutionNode) (i : String)
    (f : ExecutionNode → ExecutionNode) (hf : ∀ n, (f n).id = n.id) (j : String) :
    findNode (updNode ns i f) j = (findNode ns j).map (fun n => if n.id = i then f n else n) := by
  induction ns with
  | nil => rfl
  | cons n ns ih =>
      have hid : (if n.id = i then f n else n).id = n.id := by
        by_cases h : n.id = i <;> simp [h, hf]
      by_cases h : n.id = j
      · unfold findNode updNode
        rw [List.map_cons,
          List.find?_cons_of_pos _ (by rw [decide_eq_true_eq, hid]; exact h),
          List.find?_cons_of_pos _ (by rw [decide_eq_true_eq]; exact h)]
        simp
      · unfold findNode updNode
        rw [List.map_cons,
          List.find?_cons_of_neg _ (by simp only [decide_eq_true_eq, hid]; exact h),
          List.find?_cons_of_neg _ (by simp only [decide_eq_true_eq]; exact h)]
        exact ih

theorem findNode_updNode_ne (ns : List ExecutionNode) (i : String)
    (f : ExecutionNode → ExecutionNode) (hf : ∀ n, (f n).id = n.id) (j : String)
    (hj : j ≠ i) : findNode (updNode ns i f) j = findNode ns j := by
  rw [findNode_updNode ns i f hf j]
  cases h : findNode ns j with
  | none => rfl
  | some n =>
      have hn : n.id = j := by
        have := List.find?_some h
        simpa using this
      simp [hn, hj]

theorem findNode_updNode_self (ns : List ExecutionNode) (i : String)
    (f : ExecutionNode → ExecutionNode) (hf : ∀ n, (f n).id = n.id) :
    findNode (updNode ns i f) i = (findNode ns i).map f := by
  rw [findNode_updNode ns i f hf i]
  cases h : findNode ns i with
  | none => rfl
  | some n =>
      have hn : n.id = i := by
        have := List.find?_some h
        simpa using this
      simp [hn]

theorem stateOf_updateStateCore (g : GBS) (i : String) (s : NodeState) (j : String) :
    stateOf (updateStateCore g i s) j =
      if j = i then (stateOf g i).map (fun _ => s) else stateOf g j := by
  unfold updateStateCore
  cases h : findNode g.nodes i with
  | none =>
      by_cases hj : j = i
      · subst hj; simp [stateOf, h]
      · simp [hj]
  | some n =>
      by_cases hj : j = i
      · subst hj
        simp only [stateOf, findNode_updNode_self _ _ _ (fun m => applyStateStamp_id _ _ m), h]
        simp [applyStateStamp_state]
      · simp only [stateOf,
          findNode_updNode_ne _ _ _ (fun m => applyStateStamp_id _ _ m) _ hj]
        simp [hj]

theorem map_state_findNode_updNode (ns : List ExecutionNode) (i : String)
    (f : ExecutionNode → ExecutionNode) (j : String) (hf : ∀ n, (f n).id = n.id)
    (hs : ∀ n, (f n).state = n.state) :
    (findNode (updNode ns i f) j).map (·.state) = (findNode ns j).map (·.state) := by
  rw [findNode_updNode ns i f hf j]
  cases findNode ns j with
  | none => rfl
  | some n => by_cases h : n.id = i <;> simp [h, hs]

theorem stateOf_setResult (g : GBS) (i : String) (r : String) (j : String) :
    stateOf (setResult g i r) j = stateOf g j := by
  unfold setResult stateOf
  exact map_state_findNode_updNode g.nodes i _ j (fun _ => rfl) (fun _ => rfl)

theorem stateOf_setError (g : GBS) (i : String) (e : String) (j : String) :
    stateOf (setError g i e) j = stateOf g j := by
  unfold setError stateOf
  exact map_state_findNode_updNode g.nodes i _ j (fun _ => rfl) (fun _ => rfl)

/-- The downstream list of the node registered under `i`, if any. -/
def downstreamOf (g : GBS) (i : String) : Option (List String) :=
  (findNode g.nodes i).map (·.downstreamNodes)

theorem map_upstream_findNode_updNode (ns : List ExecutionNode) (i : String)
    (f : ExecutionNode → ExecutionNode) (j : String) (hf : ∀ n, (f n).id = n.id)
    (hu : ∀ n, (f n).upstreamNodes = n.upstreamNodes) :
    (findNode (updNode ns i f) j).map (·.upstreamNodes) =
      (findNode ns j).map (·.upstreamNodes) := by
  rw [findNode_updNode ns i f hf j]
  cases findNode ns j with
  | none => rfl
  | some n => by_cases h : n.id = i <;> simp [h, hu]

theorem map_downstream_findNode_updNode (ns : List ExecutionNode) (i : String)
    (f : ExecutionNode → ExecutionNode) (j : String) (hf : ∀ n, (f n).id = n.id)
    (hd : ∀ n, (f n).downstreamNodes = n.downstreamNodes) :
    (findNode (updNode ns i f) j).map (·.downstreamNodes) =
      (findNode ns j).map (·.downstreamNodes) := by
  rw [findNode_updNode ns i f hf j]
  cases findNode ns j with
  | none => rfl
  | some n => by_cases h : n.id = i <;> simp [h, hd]

theorem isSome_findNode_updNode (ns : List ExecutionNode) (i : String)
    (f : ExecutionNode → ExecutionNode) (j : String) (hf : ∀ n, (f n).id = n.id) :
    (findNode (updNode ns i f) j).isSome = (findNode ns j).isSome := by
  rw [findNode_updNode ns i f hf j]
  cases findNode ns j <;> rfl

theorem upstreamOf_updateStateCore (g : GBS) (i : String) (s : NodeState) (j : String) :
    upstreamOf (updateStateCore g i s) j = upstreamOf g j := by
  unfold updateStateCore
  cases h : findNode g.nodes i with
  | none => rfl
  | some n =>
      unfold upstreamOf
      exact map_upstream_findNode_updNode g.nodes i _ j
        (fun m => applyStateStamp_id _ _ m) (fun m => applyStateStamp_upstream _ _ m)

theorem downstreamOf_updateStateCore (g : GBS) (i : String) (s : NodeState) (j : String) :
    downstreamOf (updateStateCore g i s) j = downstreamOf g j := by
  unfold updateStateCore
  cases h : findNode g.nodes i with
  | none => rfl
  | some n =>
      unfold downstreamOf
      exact map_downstream_findNode_updNode g.nodes i _ j
        (fun m => applyStateStamp_id _ _ m) (fun m => applyStateStamp_downstream _ _ m)

theorem upstreamOf_setResult (g : GBS) (i : String) (r : String) (j : String) :
    upstreamOf (setResult g i r) j = upstreamOf g j := by
  unfold setResult upstreamOf
  exact map_upstream_findNode_updNode g.nodes i _ j (fun _ => rfl) (fun _ => rfl)

theorem upstreamOf_setError (g : GBS) (i : String) (e : String) (j : String) :
    upstreamOf (setError g i e) j = upstreamOf g j := by
  unfold setError upstreamOf
  exact map_upstream_findNode_updNode g.nodes i _ j (fun _ => rfl) (fun _ => rfl)

theorem downstreamOf_setResult (g : GBS) (i : String) (r : String) (j : String) :
    downstreamOf (setResult g i r) j = downstreamOf g j := by
  unfold setResult downstreamOf
  exact map_downstream_findNode_updNode g.nodes i _ j (fun _ => rfl) (fun _ => rfl)

theorem downstreamOf_setError (g : GBS) (i : String) (e : String) (j : String) :
    downstreamOf (setError g i e) j = downstreamOf g j := by
  unfold setError downstreamOf
  exact map_downstream_findNode_updNode g.nodes i _ j (fun _ => rfl) (fun _ => rfl)

theorem stateOf_triggerStep_cases (acc : GBS) (did j : String) :
    stateOf (triggerStep acc did) j = stateOf acc j ∨
      (j = did ∧ stateOf (triggerStep acc did) j = some .ready ∧
        ∃ dn, findNode acc.nodes j = some dn ∧ allDepsCompleted acc.nodes dn = true) := by
  unfold triggerStep
  cases h : findNode acc.nodes did with
  | none => exact Or.inl rfl
  | some dn =>
      dsimp only
      by_cases hg : allDepsCompleted acc.nodes dn = true
      · rw [if_pos hg]
        by_cases hj : j = did
        · subst hj
          right
          refine ⟨rfl, ?_, dn, h, hg⟩
          rw [stateOf_updateStateCore, if_pos rfl]
          have h1 : stateOf { acc with
              nodes := updNode acc.nodes j (fun n => { n with prompt := generatePrompt acc.nodes dn }) } j =
              stateOf acc j := by
            unfold stateOf
            exact map_state_findNode_updNode acc.nodes j _ j (fun _ => rfl) (fun _ => rfl)
          rw [h1]
          unfold stateOf
          rw [h]
          rfl
        · left
          rw [stateOf_updateStateCore, if_neg hj]
          unfold stateOf
          exact map_state_findNode_updNode acc.nodes did _ j (fun _ => rfl) (fun _ => rfl)
      · rw [if_neg hg]
        exact Or.inl rfl

theorem stateOf_triggerStep_ready (acc : GBS) (did : String) (dn : ExecutionNode)
    (h : findNode acc.nodes did = some dn) (hg : allDepsCompleted acc.nodes dn = true) :
    stateOf (triggerStep acc did) did = some .ready := by
  unfold triggerStep
  rw [h]
  dsimp only
  rw [if_pos hg, stateOf_updateStateCore, if_pos rfl]
  have h1 : stateOf { acc with
      nodes := updNode acc.nodes did (fun n => { n with prompt := generatePrompt acc.nodes dn }) } did =
      stateOf acc did := by
    unfold stateOf
    exact map_state_findNode_updNode acc.nodes did _ did (fun _ => rfl) (fun _ => rfl)
  rw [h1]
  unfold stateOf
  rw [h]
  rfl

theorem upstreamOf_triggerStep (acc : GBS) (did j : String) :
    upstreamOf (triggerStep acc did) j = upstreamOf acc j := by
  unfold triggerStep
  cases h : findNode acc.nodes did with
  | none => rfl
  | some dn =>
      dsimp only
      by_cases hg : allDepsCompleted acc.nodes dn = true
      · rw [if_pos hg, upstreamOf_updateStateCore]
        unfold upstreamOf
        exact map_upstream_findNode_updNode acc.nodes did _ j (fun _ => rfl) (fun _ => rfl)
      · rw [if_neg hg]

theorem downstreamOf_triggerStep (acc : GBS) (did j : String) :
    downstreamOf (triggerStep acc did) j = downstreamOf acc j := by
  unfold triggerStep
  cases h : findNode acc.nodes did with
  | none => rfl
  | some dn =>
      dsimp only
      by_cases hg : allDepsCompleted acc.nodes dn = true
      · rw [if_pos hg, downstreamOf_updateStateCore]
        unfold downstreamOf
        exact map_downstream_findNode_updNode acc.nodes did _ j (fun _ => rfl) (fun _ => rfl)
      · rw [if_neg hg]

theorem depsDone_eq_all_decide (g : GBS) (ups : List String) :
    depsDone g ups = ups.all (fun u => decide (stateOf g u = some .completed)) := by
  unfold depsDone
  induction ups with
  | nil => rfl
  | cons u us ih =>
      simp only [List.all_cons, ih]
      have hd : (match stateOf g u with
          | some s => decide (s = NodeState.completed)
          | none => false) = decide (stateOf g u = some .completed) := by
        cases stateOf g u with
        | none => simp
        | some s => simp
      rw [hd]

theorem depsDone_congr (g g' : GBS)
    (h : ∀ u, (stateOf g' u = some .completed) ↔ (stateOf g u = some .completed))
    (ups : List String) : depsDone g' ups = depsDone g ups := by
  rw [depsDone_eq_all_decide, depsDone_eq_all_decide]
  induction ups with
  | nil => rfl
  | cons u us ih =>
      simp only [List.all_cons, ih]
      rw [decide_eq_decide.mpr (h u)]

/-- The trigger fold may be run safely over a target list none of whose
members is COMPLETED or EXECUTING. -/
def TargetsSafe (g : GBS) (L : List String) : Prop :=
  ∀ did ∈ L, ∀ w, findNode g.nodes did = some w →
    ¬w.state = .completed ∧ ¬w.state = .executing

theorem stateOf_eq_some_state (g : GBS) (i : String) (w : ExecutionNode)
    (h : findNode g.nodes i = some w) : stateOf g i = some w.state := by
  unfold stateOf
  rw [h]
  rfl

theorem stateOf_completed_exists (g : GBS) (i : String)
    (h : stateOf g i = some .completed) :
    ∃ w, findNode g.nodes i = some w ∧ w.state = .completed := by
  unfold stateOf at h
  exact Option.map_eq_some'.mp h

theorem stateOf_executing_exists (g : GBS) (i : String)
    (h : stateOf g i = some .executing) :
    ∃ w, findNode g.nodes i = some w ∧ w.state = .executing := by
  unfold stateOf at h
  exact Option.map_eq_some'.mp h

/-- Single-step consequences of `triggerStep` under a safe target. -/
theorem triggerStep_completed_iff (g : GBS) (did : String)
    (hT : ∀ w, findNode g.nodes did = some w → ¬w.state = .completed ∧ ¬w.state = .executing)
    (j : String) :
    (stateOf (triggerStep g did) j = some .completed ↔ stateOf g j = some .completed) ∧
    (stateOf (triggerStep g did) j = some .executing ↔ stateOf g j = some .executing) := by
  rcases stateOf_triggerStep_cases g did j with hc | ⟨hj, hc, -⟩
  · rw [hc]
    exact ⟨Iff.rfl, Iff.rfl⟩
  · subst hj
    constructor
    · constructor
      · intro h; rw [hc] at h; exact absurd h (by simp)
      · intro h
        obtain ⟨w, hw, hws⟩ := stateOf_completed_exists g j h
        exact absurd hws (hT w hw).1
    · constructor
      · intro h; rw [hc] at h; exact absurd h (by simp)
      · intro h
        obtain ⟨w, hw, hws⟩ := stateOf_executing_exists g j h
        exact absurd hws (hT w hw).2

/-- Behaviour of a full `_trigger_downstream_nodes` fold over a safe
target list: states change only to READY and only at targets, the
COMPLETED and EXECUTING sets are untouched, and every target whose
upstream dependencies are all COMPLETED ends READY. -/
theorem triggerFold_spec : ∀ (L : List String) (g : GBS), TargetsSafe g L →
    (∀ j, stateOf (L.foldl triggerStep g) j = stateOf g j ∨
      (j ∈ L ∧ stateOf (L.foldl triggerStep g) j = some .ready ∧
        ∃ w, findNode g.nodes j = some w ∧ allDepsCompleted g.nodes w = true)) ∧
    (∀ j, stateOf (L.foldl triggerStep g) j = some .completed ↔
      stateOf g j = some .completed) ∧
    (∀ j, stateOf (L.foldl triggerStep g) j = some .executing ↔
      stateOf g j = some .executing) ∧
    (∀ did ∈ L, ∀ w, findNode g.nodes did = some w → allDepsCompleted g.nodes w = true →
      stateOf (L.foldl triggerStep g) did = some .ready) ∧
    (∀ j, upstreamOf (L.foldl triggerStep g) j = upstreamOf g j) ∧
    (∀ j, downstreamOf (L.foldl triggerStep g) j = downstreamOf g j) := by
  intro L
  induction L with
  | nil =>
      intro g _
      refine ⟨fun j => Or.inl rfl, fun j => Iff.rfl, fun j => Iff.rfl, ?_, fun j => rfl, fun j => rfl⟩
      intro did hd
      exact absurd hd (List.not_mem_nil did)
  | cons did0 L' ih =>
      intro g hT
      have hT0 : ∀ w, findNode g.nodes did0 = some w →
          ¬w.state = .completed ∧ ¬w.state = .executing :=
        fun w hw => hT did0 (List.mem_cons_self _ _) w hw
      have step2 := fun j => (triggerStep_completed_iff g did0 hT0 j).1
      have step3 := fun j => (triggerStep_completed_iff g did0 hT0 j).2
      have hT' : TargetsSafe (triggerStep g did0) L' := by
        intro did hd w1 hw1
        have hs1 : stateOf (triggerStep g did0) did = some w1.state :=
          stateOf_eq_some_state _ _ _ hw1
        constructor
        · intro hc
          rw [hc] at hs1
          obtain ⟨w0, hw0, hws0⟩ := stateOf_completed_exists g did ((step2 did).mp hs1)
          exact (hT did (List.mem_cons_of_mem _ hd) w0 hw0).1 hws0
        · intro hc
          rw [hc] at hs1
          obtain ⟨w0, hw0, hws0⟩ := stateOf_executing_exists g did ((step3 did).mp hs1)
          exact (hT did (List.mem_cons_of_mem _ hd) w0 hw0).2 hws0
      obtain ⟨ih1, ih2, ih3, ih4, ih5, ih6⟩ := ih (triggerStep g did0) hT'
      have fold_eq : (did0 :: L').foldl triggerStep g = L'.foldl triggerStep (triggerStep g did0) := rfl
      refine ⟨?_, ?_, ?_, ?_, ?_, ?_⟩
      · intro j
        rcases ih1 j with h1 | ⟨hm, h1, w1, hw1, hg1⟩
        · rcases stateOf_triggerStep_cases g did0 j with h0 | ⟨hj, h0, hga⟩
          · exact Or.inl (by rw [fold_eq, h1, h0])
          · exact Or.inr ⟨by rw [hj]; exact List.mem_cons_self _ _,
              by rw [fold_eq, h1, h0], hga⟩
        · -- promoted inside the tail fold: pull the guard back to `g`
          refine Or.inr ⟨List.mem_cons_of_mem _ hm, by rw [fold_eq]; exact h1, ?_⟩
          have hup : upstreamOf (triggerStep g did0) j = upstreamOf g j :=
            upstreamOf_triggerStep g did0 j
          have hupg1 : upstreamOf (triggerStep g did0) j = some w1.upstreamNodes := by
            unfold upstreamOf
            rw [hw1]
            rfl
          obtain ⟨w0, hw0, hwu⟩ : ∃ w0, findNode g.nodes j = some w0 ∧
              w0.upstreamNodes = w1.upstreamNodes := by
            have := hup.symm.trans hupg1
            unfold upstreamOf at this
            obtain ⟨w0, hw0, hwu⟩ := Option.map_eq_some'.mp this
            exact ⟨w0, hw0, hwu⟩
          refine ⟨w0, hw0, ?_⟩
          have step2' := fun u => (triggerStep_completed_iff g did0 hT0 u).1
          rw [allDepsCompleted_eq_depsDone, hwu, ← depsDone_congr g _ step2',
            ← allDepsCompleted_eq_depsDone]
          exact hg1
      · intro j
        rw [fold_eq]
        exact (ih2 j).trans (step2 j)
      · intro j
        rw [fold_eq]
        exact (ih3 j).trans (step3 j)
      · intro did hd w hw hg
        rw [fold_eq]
        rcases List.mem_cons.mp hd with h0 | hmem
        · subst h0
          have hr : stateOf (triggerStep g did) did = some .ready :=
            stateOf_triggerStep_ready g did w hw hg
          rcases ih1 did with h1 | ⟨_, h1, -⟩
          · rw [h1, hr]
          · exact h1
        · -- the target sits further down the list; transfer its guard
          have hup : upstreamOf (triggerStep g did0) did = upstreamOf g did :=
            upstreamOf_triggerStep g did0 did
          have hupg : upstreamOf g did = some w.upstreamNodes := by
            unfold upstreamOf
            rw [hw]
            rfl
          obtain ⟨w1, hw1, hwu⟩ : ∃ w1, findNode (triggerStep g did0).nodes did = some w1 ∧
              w1.upstreamNodes = w.upstreamNodes := by
            have := hup.trans hupg
            unfold upstreamOf at this
            obtain ⟨w1, hw1, hwu⟩ := Option.map_eq_some'.mp this
            exact ⟨w1, hw1, hwu⟩
          have hg1 : allDepsCompleted (triggerStep g did0).nodes w1 = true := by
            rw [allDepsCompleted_eq_depsDone, hwu, depsDone_congr g _ step2,
              ← allDepsCompleted_eq_depsDone]
            exact hg
          exact ih4 did hmem w1 hw1 hg1
      · intro j
        rw [fold_eq, ih5 j, upstreamOf_triggerStep]
      · intro j
        rw [fold_eq, ih6 j, downstreamOf_triggerStep]

theorem depsDone_true_iff (g : GBS) (ups : List String) :
    depsDone g ups = true ↔ ∀ u ∈ ups, stateOf g u = some .completed := by
  rw [depsDone_eq_all_decide, List.all_eq_true]
  constructor
  · intro h u hu
    have := h u hu
    simpa using this
  · intro h u hu
    simp [h u hu]

/-- The support invariant of the trigger protocol: every node whose
state has progressed to READY or beyond has all of its upstream
references resolving to registered COMPLETED nodes. -/
def Jinv (g : GBS) : Prop :=
  ∀ i, (stateOf g i = some .ready ∨ stateOf g i = some .executing ∨
      stateOf g i = some .completed) →
    ∀ ups, upstreamOf g i = some ups → ∀ u ∈ ups, stateOf g u = some .completed

/-- The data-model invariant of §3 of the spec: the downstream relation
is the exact structural inverse of the upstream relation over
registered nodes. -/
def WFinv (g : GBS) : Prop :=
  ∀ i j ups downs, upstreamOf g i = some ups → downstreamOf g j = some downs →
    (j ∈ ups ↔ i ∈ downs)

theorem stateOf_updateState_ne_completed (g : GBS) (i : String) (s : NodeState)
    (hs : ¬s = .completed) (j : String) :
    stateOf (updateState g i s) j =
      if j = i then (stateOf g i).map (fun _ => s) else stateOf g j := by
  unfold updateState
  rw [if_neg hs]
  exact stateOf_updateStateCore g i s j

theorem upstreamOf_updateState_ne_completed (g : GBS) (i : String) (s : NodeState)
    (hs : ¬s = .completed) (j : String) :
    upstreamOf (updateState g i s) j = upstreamOf g j := by
  unfold updateState
  rw [if_neg hs]
  exact upstreamOf_updateStateCore g i s j

theorem downstreamOf_updateState_ne_completed (g : GBS) (i : String) (s : NodeState)
    (hs : ¬s = .completed) (j : String) :
    downstreamOf (updateState g i s) j = downstreamOf g j := by
  unfold updateState
  rw [if_neg hs]
  exact downstreamOf_updateStateCore g i s j

/-- Full characterization of a COMPLETED transition on an EXECUTING
node in a store satisfying the support and inverse invariants: the
invariants are preserved, the COMPLETED set grows by exactly `i`, the
edge structure is untouched, states change only to READY (under their
guard) apart from `i` itself, and every downstream dependent of `i`
whose dependencies are now all COMPLETED ends READY. -/
theorem updateState_completed_spec (h : GBS) (i : String)
    (hJ : Jinv h) (hW : WFinv h) (hx : stateOf h i = some .executing) :
    Jinv (updateState h i .completed) ∧
    WFinv (updateState h i .completed) ∧
    (∀ j, stateOf (updateState h i .completed) j = some .completed ↔
      (stateOf h j = some .completed ∨ j = i)) ∧
    (∀ j, upstreamOf (updateState h i .completed) j = upstreamOf h j) ∧
    (∀ j, downstreamOf (updateState h i .completed) j = downstreamOf h j) ∧
    (∀ j, j ≠ i → stateOf (updateState h i .completed) j = stateOf h j ∨
      stateOf (updateState h i .completed) j = some .ready) ∧
    (∀ downs, downstreamOf h i = some downs → ∀ d ∈ downs, ∀ ups,
      upstreamOf h d = some ups → (∀ u ∈ ups, u = i ∨ stateOf h u = some .completed) →
      stateOf (updateState h i .completed) d = some .ready) ∧
    (∀ j, stateOf (updateState h i .completed) j = some .executing ↔
      (stateOf h j = some .executing ∧ ¬j = i)) := by
  -- the COMPLETED write itself
  have hfind : ∃ n, findNode h.nodes i = some n := by
    unfold stateOf at hx
    obtain ⟨n, hn, -⟩ := Option.map_eq_some'.mp hx
    exact ⟨n, hn⟩
  obtain ⟨n0, hn0⟩ := hfind
  set g1 := updateStateCore h i .completed with hg1def
  have s_g1 : ∀ j, stateOf g1 j = if j = i then some .completed else stateOf h j := by
    intro j
    rw [hg1def, stateOf_updateStateCore]
    by_cases hj : j = i
    · subst hj
      rw [if_pos rfl, if_pos rfl, hx]
      rfl
    · rw [if_neg hj, if_neg hj]
  have up_g1 : ∀ j, upstreamOf g1 j = upstreamOf h j := fun j =>
    upstreamOf_updateStateCore h i .completed j
  have down_g1 : ∀ j, downstreamOf g1 j = downstreamOf h j := fun j =>
    downstreamOf_updateStateCore h i .completed j
  -- the trigger fold
  have hfind1 : ∃ cn, findNode g1.nodes i = some cn := by
    have : stateOf g1 i = some .completed := by rw [s_g1, if_pos rfl]
    unfold stateOf at this
    obtain ⟨cn, hcn, -⟩ := Option.map_eq_some'.mp this
    exact ⟨cn, hcn⟩
  obtain ⟨cn, hcn⟩ := hfind1
  have hdownL : downstreamOf h i = some cn.downstreamNodes := by
    rw [← down_g1]
    unfold downstreamOf
    rw [hcn]
    rfl
  have hne_self : ¬i ∈ cn.downstreamNodes := by
    intro hmem
    have hups : ∃ ups, upstreamOf h i = some ups := by
      unfold upstreamOf
      rw [hn0]
      exact ⟨n0.upstreamNodes, rfl⟩
    obtain ⟨ups, hups⟩ := hups
    have hii : i ∈ ups := (hW i i ups cn.downstreamNodes hups hdownL).mpr hmem
    have := hJ i (Or.inr (Or.inl hx)) ups hups i hii
    rw [this] at hx
    exact absurd hx (by simp)
  have hTS : TargetsSafe g1 cn.downstreamNodes := by
    intro did hd w hw
    have hsw : stateOf g1 did = some w.state := stateOf_eq_some_state _ _ _ hw
    have hdne : did ≠ i := fun hde => hne_self (hde ▸ hd)
    rw [s_g1, if_neg hdne] at hsw
    -- `did` is a dependent of `i`; by the inverse invariant `i ∈ ups(did)`
    have hupsd : upstreamOf h did = some w.upstreamNodes := by
      rw [← up_g1 did]
      unfold upstreamOf
      rw [hw]
      rfl
    have hiu : i ∈ w.upstreamNodes :=
      (hW did i w.upstreamNodes cn.downstreamNodes hupsd hdownL).mpr hd
    constructor
    · intro hc
      have := hJ did (Or.inr (Or.inr (by rw [hsw, hc]))) w.upstreamNodes hupsd i hiu
      rw [this] at hx
      exact absurd hx (by simp)
    · intro hc
      have := hJ did (Or.inr (Or.inl (by rw [hsw, hc]))) w.upstreamNodes hupsd i hiu
      rw [this] at hx
      exact absurd hx (by simp)
  obtain ⟨f1, f2, f3, f4, f5, f6⟩ := triggerFold_spec cn.downstreamNodes g1 hTS
  have hunfold : updateState h i .completed = cn.downstreamNodes.foldl triggerStep g1 := by
    unfold updateState
    rw [if_pos rfl]
    show triggerDownstream g1 i = _
    unfold triggerDownstream
    rw [hcn]
  have hcomp : ∀ j, stateOf (updateState h i .completed) j = some .completed ↔
      (stateOf h j = some .completed ∨ j = i) := by
    intro j
    rw [hunfold, f2 j, s_g1]
    by_cases hj : j = i
    · subst hj
      simp
    · rw [if_neg hj]
      constructor
      · exact Or.inl
      · intro hor
        rcases hor with hc | hc
        · exact hc
        · exact absurd hc hj
  have hup : ∀ j, upstreamOf (updateState h i .completed) j = upstreamOf h j := by
    intro j
    rw [hunfold, f5 j, up_g1]
  have hdown : ∀ j, downstreamOf (updateState h i .completed) j = downstreamOf h j := by
    intro j
    rw [hunfold, f6 j, down_g1]
  have hexeciff : ∀ j, stateOf (updateState h i .completed) j = some .executing ↔
      (stateOf h j = some .executing ∧ ¬j = i) := by
    intro j
    rw [hunfold, f3 j, s_g1]
    by_cases hj : j = i
    · subst hj
      rw [if_pos rfl]
      constructor
      · intro hc
        exact absurd hc (by simp)
      · rintro ⟨-, hne⟩
        exact absurd rfl hne
    · rw [if_neg hj]
      constructor
      · intro hx
        exact ⟨hx, hj⟩
      · rintro ⟨hx, -⟩
        exact hx
  refine ⟨?_, ?_, hcomp, hup, hdown, ?_, ?_, hexeciff⟩
  · -- Jinv preserved
    intro j hstate ups hups u hu
    rw [hup j] at hups
    rw [hcomp u]
    rcases (by rw [hunfold]; exact f1 j :
        stateOf (updateState h i .completed) j = stateOf g1 j ∨
          (j ∈ cn.downstreamNodes ∧
            stateOf (updateState h i .completed) j = some .ready ∧
            ∃ w, findNode g1.nodes j = some w ∧ allDepsCompleted g1.nodes w = true)) with
      hsame | ⟨hm, hst, w, hw, hg⟩
    · -- state as after the COMPLETED write
      rw [hsame, s_g1] at hstate
      by_cases hj : j = i
      · subst hj
        -- the completing node: its supports were completed before
        have := hJ j (Or.inr (Or.inl hx)) ups hups u hu
        left
        exact this
      · rw [if_neg hj] at hstate
        have := hJ j hstate ups hups u hu
        left
        exact this
    · -- promoted by the trigger under its guard
      have hupw : upstreamOf g1 j = some w.upstreamNodes := by
        unfold upstreamOf
        rw [hw]
        rfl
      have hupsw : w.upstreamNodes = ups := by
        rw [up_g1 j] at hupw
        rw [hups] at hupw
        exact (Option.some_inj.mp hupw).symm ▸ rfl
      have hdd : ∀ u' ∈ w.upstreamNodes, stateOf g1 u' = some .completed := by
        rw [allDepsCompleted_eq_depsDone] at hg
        exact (depsDone_true_iff g1 w.upstreamNodes).mp hg
      have := hdd u (by rw [hupsw]; exact hu)
      rw [s_g1] at this
      by_cases hui : u = i
      · right; exact hui
      · rw [if_neg hui] at this
        left
        exact this
  · -- WFinv preserved
    intro a b ups downs hups hdowns
    rw [hup a] at hups
    rw [hdown b] at hdowns
    exact hW a b ups downs hups hdowns
  · -- states change only to READY apart from `i`
    intro j hj
    rcases (by rw [hunfold]; exact f1 j :
        stateOf (updateState h i .completed) j = stateOf g1 j ∨
          (j ∈ cn.downstreamNodes ∧
            stateOf (updateState h i .completed) j = some .ready ∧
            ∃ w, findNode g1.nodes j = some w ∧ allDepsCompleted g1.nodes w = true)) with
      hsame | ⟨-, hst, -⟩
    · left
      rw [hsame, s_g1, if_neg hj]
    · right
      exact hst
  · -- dependents whose dependencies are now all COMPLETED end READY
    intro downs hdowns d hd ups hups hall
    have hdowns' : downs = cn.downstreamNodes := by
      rw [hdownL] at hdowns
      exact (Option.some_inj.mp hdowns).symm
    subst hdowns'
    -- find the dependent in `g1`
    have hupsd1 : upstreamOf g1 d = some ups := by rw [up_g1]; exact hups
    obtain ⟨w, hw, hwu⟩ : ∃ w, findNode g1.nodes d = some w ∧ w.upstreamNodes = ups := by
      unfold upstreamOf at hupsd1
      obtain ⟨w, hw, hwu⟩ := Option.map_eq_some'.mp hupsd1
      exact ⟨w, hw, hwu⟩
    have hg : allDepsCompleted g1.nodes w = true := by
      rw [allDepsCompleted_eq_depsDone, hwu, depsDone_true_iff]
      intro u hu
      rw [s_g1]
      rcases hall u hu with hui | huc
      · rw [if_pos hui]
      · by_cases hui : u = i
        · rw [if_pos hui]
        · rw [if_neg hui]; exact huc
    rw [hunfold]
    exact f4 d hd w hw hg

/-! ## Claim C2 — readiness vs. completed upstream -/

/-- The atomic actions `execute_dag` and `_execute_node` perform on the
store during a run: seeding an IDLE root to READY, dispatching a READY
node to EXECUTING, and an EXECUTING node completing (result recorded,
COMPLETED transition, synchronous trigger evaluation) or failing. -/
inductive SchedStep : GBS → GBS → Prop where
  | seed (g : GBS) (i : String) :
      stateOf g i = some .idle → upstreamOf g i = some [] →
      SchedStep g (updateState g i .ready)
  | dispatch (g : GBS) (i : String) :
      stateOf g i = some .ready → SchedStep g (updateState g i .executing)
  | complete (g : GBS) (i r : String) :
      stateOf g i = some .executing →
      SchedStep g (updateState (setResult g i r) i .completed)
  | fail (g : GBS) (i e : String) :
      stateOf g i = some .executing →
      SchedStep g (updateState (setError g i e) i .failed)

theorem updateState_noncompleted_preserves (g : GBS) (i : String) (s : NodeState)
    (hsnc : ¬s = .completed) (hnc : ¬stateOf g i = some .completed)
    (hsup : (s = .ready ∨ s = .executing ∨ s = .completed) →
      ∀ ups, upstreamOf g i = some ups → ∀ u ∈ ups, stateOf g u = some .completed)
    (hJ : Jinv g) (hW : WFinv g) :
    Jinv (updateState g i s) ∧ WFinv (updateState g i s) := by
  have hst : ∀ j, stateOf (updateState g i s) j =
      if j = i then (stateOf g i).map (fun _ => s) else stateOf g j :=
    stateOf_updateState_ne_completed g i s hsnc
  have hupeq : ∀ j, upstreamOf (updateState g i s) j = upstreamOf g j :=
    upstreamOf_updateState_ne_completed g i s hsnc
  have hdowneq : ∀ j, downstreamOf (updateState g i s) j = downstreamOf g j :=
    downstreamOf_updateState_ne_completed g i s hsnc
  constructor
  · intro j hstate ups hups u hu
    rw [hupeq] at hups
    rw [hst]
    have hucomp : stateOf g u = some .completed := by
      by_cases hj : j = i
      · subst hj
        rw [hst, if_pos rfl] at hstate
        have hsmem : s = .ready ∨ s = .executing ∨ s = .completed := by
          rcases hstate with hc | hc | hc
          · left
            cases hg : stateOf g j with
            | none => rw [hg] at hc; exact absurd hc (by simp)
            | some st => rw [hg] at hc; simp at hc; exact hc
          · right; left
            cases hg : stateOf g j with
            | none => rw [hg] at hc; exact absurd hc (by simp)
            | some st => rw [hg] at hc; simp at hc; exact hc
          · right; right
            cases hg : stateOf g j with
            | none => rw [hg] at hc; exact absurd hc (by simp)
            | some st => rw [hg] at hc; simp at hc; exact hc
        exact hsup hsmem ups hups u hu
      · rw [hst, if_neg hj] at hstate
        exact hJ j hstate ups hups u hu
    by_cases hui : u = i
    · rw [hui] at hucomp
      exact absurd hucomp hnc
    · rw [if_neg hui]
      exact hucomp
  · intro a b ups downs hups hdowns
    rw [hupeq] at hups
    rw [hdowneq] at hdowns
    exact hW a b ups downs hups hdowns

theorem Jinv_setResult (g : GBS) (i r : String) (hJ : Jinv g) : Jinv (setResult g i r) := by
  intro j hstate ups hups u hu
  rw [stateOf_setResult] at hstate
  rw [upstreamOf_setResult] at hups
  rw [stateOf_setResult]
  exact hJ j hstate ups hups u hu

theorem WFinv_setResult (g : GBS) (i r : String) (hW : WFinv g) : WFinv (setResult g i r) := by
  intro a b ups downs hups hdowns
  rw [upstreamOf_setResult] at hups
  rw [downstreamOf_setResult] at hdowns
  exact hW a b ups downs hups hdowns

theorem Jinv_setError (g : GBS) (i e : String) (hJ : Jinv g) : Jinv (setError g i e) := by
  intro j hstate ups hups u hu
  rw [stateOf_setError] at hstate
  rw [upstreamOf_setError] at hups
  rw [stateOf_setError]
  exact hJ j hstate ups hups u hu

theorem WFinv_setError (g : GBS) (i e : String) (hW : WFinv g) : WFinv (setError g i e) := by
  intro a b ups downs hups hdowns
  rw [upstreamOf_setError] at hups
  rw [downstreamOf_setError] at hdowns
  exact hW a b ups downs hups hdowns

theorem SchedStep_preserves {g g' : GBS} (hs : SchedStep g g')
    (hJ : Jinv g) (hW : WFinv g) : Jinv g' ∧ WFinv g' := by
  cases hs with
  | seed i hidle hups =>
      refine updateState_noncompleted_preserves g i .ready (by simp)
        (by rw [hidle]; simp) ?_ hJ hW
      intro _ ups hups' u hu
      rw [hups'] at hups
      have : ups = [] := (Option.some_inj.mp hups).symm ▸ rfl
      rw [this] at hu
      exact absurd hu (List.not_mem_nil u)
  | dispatch i hready =>
      refine updateState_noncompleted_preserves g i .executing (by simp)
        (by rw [hready]; simp) ?_ hJ hW
      intro _ ups hups u hu
      exact hJ i (Or.inl hready) ups hups u hu
  | complete i r hexec =>
      have hx' : stateOf (setResult g i r) i = some .executing := by
        rw [stateOf_setResult]; exact hexec
      have := updateState_completed_spec (setResult g i r) i
        (Jinv_setResult g i r hJ) (WFinv_setResult g i r hW) hx'
      exact ⟨this.1, this.2.1⟩
  | fail i e hexec =>
      have hx' : stateOf (setError g i e) i = some .executing := by
        rw [stateOf_setError]; exact hexec
      refine updateState_noncompleted_preserves (setError g i e) i .failed (by simp)
        (by rw [hx']; simp) ?_ (Jinv_setError g i e hJ) (WFinv_setError g i e hW)
      intro hmem
      rcases hmem with hc | hc | hc <;> exact absurd hc (by simp)

theorem run_invariant (g0 g : GBS) (hr : Relation.ReflTransGen SchedStep g0 g)
    (hJ0 : Jinv g0) (hW0 : WFinv g0) : Jinv g ∧ WFinv g := by
  induction hr with
  | refl => exact ⟨hJ0, hW0⟩
  | tail hsteps hstep ih => exact SchedStep_preserves hstep ih.1 ih.2

theorem findNode_mem (ns : List ExecutionNode) (i : String) (n : ExecutionNode)
    (h : findNode ns i = some n) : n ∈ ns ∧ n.id = i := by
  unfold findNode at h
  refine ⟨List.mem_of_find?_eq_some h, ?_⟩
  have := List.find?_some h
  simpa using this

/-- The data-model inverse invariant, stated over the registered node
records (decidable on concrete stores). -/
def WFnodes (g : GBS) : Prop :=
  ∀ u ∈ g.nodes, ∀ v ∈ g.nodes, (u.id ∈ v.upstreamNodes ↔ v.id ∈ u.downstreamNodes)

theorem WFinv_of_WFnodes (g : GBS) (h : WFnodes g) : WFinv g := by
  intro i j ups downs hups hdowns
  unfold upstreamOf at hups
  unfold downstreamOf at hdowns
  obtain ⟨v, hv, hvu⟩ := Option.map_eq_some'.mp hups
  obtain ⟨u, hu, hud⟩ := Option.map_eq_some'.mp hdowns
  obtain ⟨hvmem, hvid⟩ := findNode_mem _ _ _ hv
  obtain ⟨humem, huid⟩ := findNode_mem _ _ _ hu
  have := h u humem v hvmem
  rw [huid, hvid, hvu, hud] at this
  exact this

/-- C2 (amended): in every state reachable by scheduler actions from a
fresh store (all nodes IDLE) whose edge relation satisfies the
structural-inverse invariant, a node is READY **only if** every one of
its upstream references resolves to a registered node in state
COMPLETED.  (The converse direction of the claimed "if and only if" is
false — see the counterexample.) -/
theorem C2_ready_implies_upstream_completed (g0 g : GBS)
    (h0 : ∀ n ∈ g0.nodes, n.state = .idle) (hW0 : WFnodes g0)
    (hr : Relation.ReflTransGen SchedStep g0 g)
    (i : String) (hready : stateOf g i = some .ready)
    (ups : List String) (hups : upstreamOf g i = some ups) :
    ∀ u ∈ ups, stateOf g u = some .completed := by
  have hJ0 : Jinv g0 := by
    intro j hstate ups' hups' u hu
    have hidle : stateOf g0 j = some .idle ∨ stateOf g0 j = none := by
      unfold stateOf
      cases hf : findNode g0.nodes j with
      | none => exact Or.inr rfl
      | some n =>
          obtain ⟨hmem, -⟩ := findNode_mem _ _ _ hf
          left
          simp [h0 n hmem]
    rcases hidle with hc | hc <;>
      rcases hstate with hs | hs | hs <;> (rw [hc] at hs; exact absurd hs (by simp))
  exact (run_invariant g0 g hr hJ0 (WFinv_of_WFnodes g0 hW0)).1 i (Or.inl hready) ups hups

/-- A single registered root node `A`, all IDLE. -/
def gRoot : GBS :=
  { nodes := [{ id := "A", role := "architect", taskId := "t1" }] }

/-- The store after the scheduler seeds `A` to READY and dispatches it
to EXECUTING. -/
def gRootExec : GBS :=
  updateState (updateState gRoot "A" .ready) "A" .executing

/-- C2 (counterexample): `gRootExec` is reachable by scheduler actions
from the fresh store `gRoot`, and in it node `A` has every upstream
node COMPLETED (it has none) yet is EXECUTING, not READY — refuting the
"if" direction of the claimed equivalence. -/
theorem C2_counterexample :
    Relation.ReflTransGen SchedStep gRoot gRootExec ∧
    upstreamOf gRootExec "A" = some [] ∧
    depsDone gRootExec [] = true ∧
    stateOf gRootExec "A" = some .executing ∧
    ¬stateOf gRootExec "A" = some .ready := by
  refine ⟨?_, by decide, by decide, by decide, by decide⟩
  have s1 : SchedStep gRoot (updateState gRoot "A" .ready) :=
    SchedStep.seed gRoot "A" (by decide) (by decide)
  have s2 : SchedStep (updateState gRoot "A" .ready) gRootExec :=
    SchedStep.dispatch (updateState gRoot "A" .ready) "A" (by decide)
  exact Relation.ReflTransGen.head s1 (Relation.ReflTransGen.single s2)

/-- A two-node chain `A → B`, fresh. -/
def gChain0 : GBS :=
  { nodes :=
    [ { id := "A", role := "architect", taskId := "t1", downstreamNodes := ["B"] }
    , { id := "B", role := "developer", taskId := "t2", upstreamNodes := ["A"] } ] }

/-- `gChain0` after seeding `A`, dispatching it, and completing it with
result `"res"` (which synchronously promotes `B` to READY). -/
def gChainReady : GBS :=
  updateState (setResult (updateState (updateState gChain0 "A" .ready) "A" .executing)
    "A" "res") "A" .completed

theorem C2_witness :
    stateOf gChainReady "B" = some .ready ∧
    stateOf gChainReady "A" = some .completed := by
  refine ⟨by decide, ?_⟩
  have hreach : Relation.ReflTransGen SchedStep gChain0 gChainReady := by
    have s1 : SchedStep gChain0 (updateState gChain0 "A" .ready) :=
      SchedStep.seed gChain0 "A" (by decide) (by decide)
    have s2 : SchedStep (updateState gChain0 "A" .ready)
        (updateState (updateState gChain0 "A" .ready) "A" .executing) :=
      SchedStep.dispatch (updateState gChain0 "A" .ready) "A" (by decide)
    have s3 : SchedStep (updateState (updateState gChain0 "A" .ready) "A" .executing)
        gChainReady :=
      SchedStep.complete (updateState (updateState gChain0 "A" .ready) "A" .executing)
        "A" "res" (by decide)
    exact Relation.ReflTransGen.head s1
      (Relation.ReflTransGen.head s2 (Relation.ReflTransGen.single s3))
  exact C2_ready_implies_upstream_completed gChain0 gChainReady (by decide)
    (by unfold WFnodes; decide) hreach "B" (by decide) ["A"] (by decide) "A" (by decide)

/-- C3 (amended): the bridge appends exactly one audit entry only on
the policy-denied path (dead under the default always-allow policy) and
on the success path (decision ALLOWED); the invalid-token path and the
missing-node path return `success=false` (with `data=null` resp. an
error payload) and append **no** audit entry. -/
theorem C3_audit_exactly (g : GBS) (req : BridgeRequest) :
    (validateConsentToken req = false →
      (bridgeContext g req).1 = g ∧ (bridgeContext g req).2.success = false ∧
      (bridgeContext g req).2.data = none) ∧
    (validateConsentToken req = true →
      (((findNode g.nodes req.sourceNode).isSome ∧ (findNode g.nodes req.targetNode).isSome) →
        ∃ e, (bridgeContext g req).1.auditLog = g.auditLog ++ [e] ∧ e.decision = "ALLOWED" ∧
          (bridgeContext g req).2.success = true) ∧
      (¬((findNode g.nodes req.sourceNode).isSome ∧ (findNode g.nodes req.targetNode).isSome) →
        (bridgeContext g req).1 = g ∧ (bridgeContext g req).2.success = false)) := by
  constructor
  · intro hv
    unfold bridgeContext
    rw [if_pos (by simp [hv])]
    exact ⟨rfl, rfl, rfl⟩
  · intro hv
    have hcond : ¬¬(validateConsentToken req = true) := by simp [hv]
    constructor
    · rintro ⟨hs, ht⟩
      obtain ⟨ns, hns⟩ := Option.isSome_iff_exists.mp hs
      obtain ⟨nt, hnt⟩ := Option.isSome_iff_exists.mp ht
      unfold bridgeContext
      rw [if_neg hcond, if_neg (by simp [checkBridgePolicy]), hns, hnt]
      exact ⟨_, rfl, rfl, rfl⟩
    · intro hng
      unfold bridgeContext
      rw [if_neg hcond, if_neg (by simp [checkBridgePolicy])]
      cases hs : findNode g.nodes req.sourceNode with
      | none =>
          cases ht : findNode g.nodes req.targetNode with
          | none => exact ⟨rfl, rfl⟩
          | some nt => exact ⟨rfl, rfl⟩
      | some ns =>
          cases ht : findNode g.nodes req.targetNode with
          | none => exact ⟨rfl, rfl⟩
          | some nt => exact absurd ⟨by rw [hs]; rfl, by rw [ht]; rfl⟩ hng

theorem C3_witness :
    ∃ e, (bridgeContext gBridge reqValidToken).1.auditLog = gBridge.auditLog ++ [e] ∧
      e.decision = "ALLOWED" ∧ (bridgeContext gBridge reqValidToken).2.success = true :=
  ((C3_audit_exactly gBridge reqValidToken).2 (by decide)).1 ⟨by decide, by decide⟩

/-- C4 (amended): a FAILED transition runs no dependent evaluation at
all — `_on_state_change` reacts only to COMPLETED — so every other
node's state is untouched (dependents are never moved to BLOCKED, they
simply stay where they were); in the `{A→B, A→C, B→D}` run with `B`
raising, `D` ends the run still IDLE while the independent sibling `C`
is COMPLETED. -/
theorem C4_failed_leaves_dependents :
    (∀ (g : GBS) (i j : String), j = i ∨
      stateOf (updateState g i .failed) j = stateOf g j) ∧
    (findNode (executeDag exFailB {} dagFail).1.nodes "D").map (·.state) = some .idle ∧
    (findNode (executeDag exFailB {} dagFail).1.nodes "C").map (·.state) = some .completed := by
  refine ⟨?_, by decide, by decide⟩
  intro g i j
  by_cases hj : j = i
  · exact Or.inl hj
  · right
    rw [stateOf_updateState_ne_completed g i .failed (by simp), if_neg hj]

/-! ## Claim C6 — stalled runs -/

/-- A scheduler stuck with the unsatisfiable node registered. -/
def gStalled : GBS := { nodes := [stalledNode] }

/-- C6 (counterexample): on the stalled one-node graph, `execute_dag`
returns the ordinary status map — node `X` still IDLE, a non-terminal
state — after zero dispatching rounds; no deadlock or timeout failure
is reported (the return value carries none). -/
theorem C6_counterexample :
    collectResults (executeDag exOk {} [stalledNode]).1 = [("X", .idle, none, none, 0)] ∧
    (executeDag exOk {} [stalledNode]).2 = 0 := by
  refine ⟨by decide, by decide⟩

/-- C6 (amended): when no node is READY and not every node is
COMPLETED/FAILED, the loop performs no state change at all — it idles
through its remaining iteration budget (the `node_count * 2` cap) and
then returns the partial status map as a normal result, with no
deadlock or timeout report. -/
theorem C6_stall_spins (exec : ExecutionNode → Except String String)
    (fuel : Nat) (g : GBS) (h1 : (readyIds g).isEmpty = true) (h2 : allDoneCheck g = false) :
    execLoop exec fuel g = (g, 0) := by
  induction fuel with
  | zero => rfl
  | succ fuel ih =>
      unfold execLoop
      rw [if_pos h1, if_neg (by simp [h2])]
      exact ih

theorem C6_witness : execLoop exOk 7 gStalled = (gStalled, 0) :=
  C6_stall_spins exOk 7 gStalled (by decide) (by decide)

/-! ## Claim C9 — dependency updates and the downstream inverse -/

/-- C9 (counterexample): after the call sequence
`set_node_dependencies({v: [u]})`, `set_node_dependencies({v: []})`,
node `v`'s upstream list is empty but `v` still sits in `u`'s
downstream list — the edge relation is no longer an exact structural
inverse. -/
theorem C9_counterexample :
    upstreamOf gUV2 "v" = some [] ∧
    downstreamOf gUV2 "u" = some ["v"] ∧
    ¬WFnodes gUV2 := by
  refine ⟨by decide, by decide, ?_⟩
  unfold WFnodes
  decide

/-! ## Claim C10 — L3 context isolation -/

/-- C10 (counterexample): node `A`'s visible L3 context holds exactly
its own record, but after node `B` creates an L3 record with the same
content in the same timestamp second, the generated record id collides,
`B`'s record replaces `A`'s in the layer dictionary, and `A`'s visible
L3 context becomes empty — creating a record owned by `B` changed the
context visible to `A`. -/
theorem C10_counterexample :
    (getVisibleContext mgrA 5 "A" none none).l3V.map (·.nodeId) = [some "A"] ∧
    (getVisibleContext mgrAB 5 "A" none none).l3V = [] := by
  refine ⟨by decide, by decide⟩

theorem filter_cleanup_layer (rs : List (String × ContextRecord)) (now : Nat)
    (q : ContextRecord → Bool) (himp : ∀ r, r.isExpired now = true → q r = false) :
    ((rs.filter (fun kv => !(kv.2.isExpired now))).map (·.2)).filter q =
      (rs.map (·.2)).filter q := by
  induction rs with
  | nil => rfl
  | cons kv rest ih =>
      cases hb : kv.2.isExpired now with
      | true =>
          have hq : q kv.2 = false := himp kv.2 hb
          simp [List.filter_cons, hb, hq, ih]
      | false =>
          cases hq : q kv.2 with
          | true => simp [List.filter_cons, hb, hq, ih]
          | false => simp [List.filter_cons, hb, hq, ih]

theorem any_eq_false_of_not_mem_keys (rs : List (String × ContextRecord)) (rid : String)
    (h : rid ∉ rs.map (·.1)) : rs.any (fun kv => decide (kv.1 = rid)) = false := by
  rw [List.any_eq_false]
  intro kv hkv
  simp only [decide_eq_true_eq]
  intro he
  exact h (he ▸ List.mem_map_of_mem (·.1) hkv)

/-- C10 (amended): (a) every L3 record `get_visible_context` returns for
node `a` is owned by `a` (`node_id = a`); (b) a record created for a
different node `b` whose generated id collides with no existing L3
record id never changes the L3 context visible to `a` (an id collision
— same level, content hash and timestamp — replaces the existing record
and can, as the counterexample shows); (c) expiring records via
`cleanup_expired` never changes any visible context. -/
theorem C10_l3_isolation :
    (∀ (m : HCM) (now : Nat) (a : String) (p s : Option String) (r : ContextRecord),
      r ∈ (getVisibleContext m now a p s).l3V → r.nodeId = some a) ∧
    (∀ (m : HCM) (tc now : Nat) (a content : String) (md : List (String × String))
      (sc : ContextScope) (pid sid : Option String) (b : String) (iso : Bool)
      (p s : Option String),
      genRecordId .l3Node content tc ∉ m.l3.records.map (·.1) → ¬b = a →
      (getVisibleContext (createContext m tc .l3Node content md sc pid (some b) sid iso).1
        now a p s).l3V = (getVisibleContext m now a p s).l3V) ∧
    (∀ (m : HCM) (now : Nat) (a : String) (p s : Option String),
      getVisibleContext (m.cleanupExpired now).1 now a p s = getVisibleContext m now a p s) := by
  refine ⟨?_, ?_, ?_⟩
  · -- (a) ownership of the returned L3 records
    intro m now a p s r hr
    unfold getVisibleContext at hr
    simp only [List.mem_filter] at hr
    have := hr.2
    simp only [Bool.and_eq_true, decide_eq_true_eq] at this
    exact this.2
  · -- (b) fresh creation for another node does not interfere
    intro m tc now a content md sc pid sid b iso p s hfresh hb
    have hl3 : (createContext m tc .l3Node content md sc pid (some b) sid iso).1.l3 =
        m.l3.addRecord
          { id := genRecordId .l3Node content tc, level := .l3Node, scope := sc
          , content := content, metadata := md, projectId := pid, nodeId := some b
          , sessionId := sid, createdAt := tc, isolated := iso } := by
      unfold createContext
      cases pid <;> rfl
    have hrecords : ((createContext m tc .l3Node content md sc pid (some b) sid iso).1.l3).records =
        m.l3.records ++
          [(genRecordId .l3Node content tc,
            { id := genRecordId .l3Node content tc, level := .l3Node, scope := sc
            , content := content, metadata := md, projectId := pid, nodeId := some b
            , sessionId := sid, createdAt := tc, ttlMinutes := ttlConfig m.l3.level
            , isolated := iso })] := by
      rw [hl3]
      unfold ContextLayer.addRecord
      rw [if_pos rfl]
      rw [if_neg (by simp [any_eq_false_of_not_mem_keys m.l3.records _ hfresh])]
    unfold getVisibleContext
    simp only
    rw [hrecords, List.map_append, List.filter_append]
    simp [hb]
  · -- (c) cleanup of expired records does not change visibility
    intro m now a p s
    unfold getVisibleContext HCM.cleanupExpired ContextLayer.cleanupExpired
    simp only
    congr 1
    · exact filter_cleanup_layer m.l1.records now _ (fun r h => by simp [h])
    · cases p with
      | none => rfl
      | some pid => exact filter_cleanup_layer m.l2.records now _ (fun r h => by simp [h])
    · exact filter_cleanup_layer m.l3.records now _ (fun r h => by simp [h])
    · cases s with
      | none => rfl
      | some sid => exact filter_cleanup_layer m.l4.records now _ (fun r h => by simp [h])

theorem C10_witness :
    (∀ r ∈ (getVisibleContext mgrA 5 "A" none none).l3V, r.nodeId = some "A") ∧
    (getVisibleContext (createContext mgrA 5 .l3Node "other content" [] .priv none
      (some "B") none true).1 5 "A" none none).l3V =
      (getVisibleContext mgrA 5 "A" none none).l3V ∧
    getVisibleContext (mgrA.cleanupExpired 5).1 5 "A" none none =
      getVisibleContext mgrA 5 "A" none none := by
  refine ⟨?_, ?_, ?_⟩
  · intro r hr
    exact C10_l3_isolation.1 mgrA 5 "A" none none r hr
  · exact C10_l3_isolation.2.1 mgrA 5 5 "A" "other content" [] .priv none none "B" true
      none none (by decide) (by decide)
  · exact C10_l3_isolation.2.2 mgrA 5 "A" none none

/-! ## Lemmas about `set_node_dependencies` -/

/-- Downstream membership through the accessors. -/
def downMem (g : GBS) (j x : String) : Prop :=
  ∃ ds, downstreamOf g j = some ds ∧ x ∈ ds

theorem findNode_eq_of_mem_nodup : ∀ (ns : List ExecutionNode),
    (ns.map (·.id)).Nodup → ∀ n ∈ ns, findNode ns n.id = some n := by
  intro ns
  induction ns with
  | nil => intro _ n hn; cases hn
  | cons m ms ih =>
      intro hnd n hn
      rcases List.mem_cons.mp hn with he | hm
      · subst he
        unfold findNode
        rw [List.find?_cons_of_pos _ (by simp)]
      · have hne : ¬m.id = n.id := by
          intro he
          have : m.id ∈ ms.map (·.id) := he ▸ List.mem_map_of_mem (·.id) hm
          exact (List.nodup_cons.mp (by simpa using hnd)).1 this
        unfold findNode
        rw [List.find?_cons_of_neg _ (by simp only [decide_eq_true_eq]; exact hne)]
        exact ih (List.nodup_cons.mp (by simpa using hnd)).2 n hm

theorem entry_unique : ∀ (d : List (String × List String)),
    (d.map (·.1)).Nodup → ∀ (k : String) (a b : List String),
    (k, a) ∈ d → (k, b) ∈ d → a = b := by
  intro d
  induction d with
  | nil => intro _ k a b ha; cases ha
  | cons kv rest ih =>
      intro hnd k a b ha hb
      rw [List.map_cons, List.nodup_cons] at hnd
      rcases List.mem_cons.mp ha with hea | hma
      · rcases List.mem_cons.mp hb with heb | hmb
        · have h3 : (k, a) = (k, b) := hea.trans heb.symm
          injection h3 with h4 h5
        · exfalso
          have hk : kv.1 = k := by rw [← hea]
          exact hnd.1 (hk ▸ List.mem_map_of_mem (·.1) hmb)
      · rcases List.mem_cons.mp hb with heb | hmb
        · exfalso
          have hk : kv.1 = k := by rw [← heb]
          exact hnd.1 (hk ▸ List.mem_map_of_mem (·.1) hma)
        · exact ih hnd.2 k a b hma hmb

theorem addDownstreamRef_f_id (k : String) (n : ExecutionNode) :
    (if k ∈ n.downstreamNodes then n
      else { n with downstreamNodes := n.downstreamNodes ++ [k] }).id = n.id := by
  by_cases hc : k ∈ n.downstreamNodes <;> simp [hc]

theorem addDownstreamRef_f_upstream (k : String) (n : ExecutionNode) :
    (if k ∈ n.downstreamNodes then n
      else { n with downstreamNodes := n.downstreamNodes ++ [k] }).upstreamNodes =
      n.upstreamNodes := by
  by_cases hc : k ∈ n.downstreamNodes <;> simp [hc]

theorem upstreamOf_addDownstreamRef (k : String) (a : GBS) (u j : String) :
    upstreamOf (addDownstreamRef k a u) j = upstreamOf a j := by
  unfold addDownstreamRef
  by_cases h : (findNode a.nodes u).isSome = true
  · rw [if_pos h]
    unfold upstreamOf
    exact map_upstream_findNode_updNode a.nodes u _ j
      (fun n => addDownstreamRef_f_id k n) (fun n => addDownstreamRef_f_upstream k n)
  · rw [if_neg h]

theorem isSome_addDownstreamRef (k : String) (a : GBS) (u j : String) :
    (findNode (addDownstreamRef k a u).nodes j).isSome = (findNode a.nodes j).isSome := by
  unfold addDownstreamRef
  by_cases h : (findNode a.nodes u).isSome = true
  · rw [if_pos h]
    exact isSome_findNode_updNode a.nodes u _ j (fun n => addDownstreamRef_f_id k n)
  · rw [if_neg h]

theorem downMem_iff_found (g : GBS) (j x : String) (n : ExecutionNode)
    (h : findNode g.nodes j = some n) : downMem g j x ↔ x ∈ n.downstreamNodes := by
  unfold downMem downstreamOf
  rw [h]
  constructor
  · rintro ⟨ds, hds, hx⟩
    have hdn : ds = n.downstreamNodes := by simpa using hds.symm
    exact hdn ▸ hx
  · intro hx
    exact ⟨n.downstreamNodes, rfl, hx⟩

theorem downMem_not_found (g : GBS) (j x : String)
    (h : findNode g.nodes j = none) : ¬downMem g j x := by
  unfold downMem downstreamOf
  rw [h]
  rintro ⟨ds, hds, -⟩
  exact absurd hds (by simp)

theorem downMem_addDownstreamRef (k : String) (a : GBS) (u j x : String) :
    downMem (addDownstreamRef k a u) j x ↔
      downMem a j x ∨ (x = k ∧ j = u ∧ (findNode a.nodes j).isSome = true) := by
  unfold addDownstreamRef
  by_cases hu : (findNode a.nodes u).isSome = true
  · rw [if_pos hu]
    by_cases hj : j = u
    · subst hj
      obtain ⟨nu, hnu⟩ := Option.isSome_iff_exists.mp hu
      have h1 : findNode (updNode a.nodes j (fun n =>
          if k ∈ n.downstreamNodes then n
          else { n with downstreamNodes := n.downstreamNodes ++ [k] })) j =
          some (if k ∈ nu.downstreamNodes then nu
            else { nu with downstreamNodes := nu.downstreamNodes ++ [k] }) := by
        rw [findNode_updNode_self a.nodes j _ (fun n => addDownstreamRef_f_id k n), hnu]
        rfl
      rw [downMem_iff_found _ j x _ h1, downMem_iff_found a j x nu hnu]
      by_cases hc : k ∈ nu.downstreamNodes
      · rw [if_pos hc]
        constructor
        · exact Or.inl
        · rintro (hx | ⟨hxk, -, -⟩)
          · exact hx
          · exact hxk ▸ hc
      · rw [if_neg hc]
        constructor
        · intro hx
          rcases List.mem_append.mp hx with hx1 | hx2
          · exact Or.inl hx1
          · exact Or.inr ⟨by simpa using hx2, rfl, hu⟩
        · rintro (hx | ⟨hxk, -, -⟩)
          · exact List.mem_append.mpr (Or.inl hx)
          · exact List.mem_append.mpr (Or.inr (by simp [hxk]))
    · have h1 : findNode (updNode a.nodes u (fun n =>
          if k ∈ n.downstreamNodes then n
          else { n with downstreamNodes := n.downstreamNodes ++ [k] })) j =
          findNode a.nodes j :=
        findNode_updNode_ne a.nodes u _ (fun n => addDownstreamRef_f_id k n) j hj
      cases hf : findNode a.nodes j with
      | none =>
          have hnone : ¬downMem { a with nodes := updNode a.nodes u _ } j x :=
            downMem_not_found _ j x (by rw [h1, hf])
          constructor
          · intro hx
            exact absurd hx hnone
          · rintro (hx | ⟨-, hju, -⟩)
            · exact absurd hx (downMem_not_found a j x hf)
            · exact absurd hju hj
      | some nj =>
          rw [downMem_iff_found _ j x nj (by rw [h1, hf]), downMem_iff_found a j x nj hf]
          constructor
          · exact Or.inl
          · rintro (hx | ⟨-, hju, -⟩)
            · exact hx
            · exact absurd hju hj
  · rw [if_neg hu]
    constructor
    · exact Or.inl
    · rintro (h | ⟨-, hju, hjs⟩)
      · exact h
      · rw [hju] at hjs
        exact absurd hjs hu

theorem innerFold_spec (k : String) : ∀ (ups : List String) (a : GBS),
    (∀ j, upstreamOf (ups.foldl (addDownstreamRef k) a) j = upstreamOf a j) ∧
    (∀ j, (findNode (ups.foldl (addDownstreamRef k) a).nodes j).isSome =
      (findNode a.nodes j).isSome) ∧
    (∀ j x, downMem (ups.foldl (addDownstreamRef k) a) j x ↔
      downMem a j x ∨ (x = k ∧ j ∈ ups ∧ (findNode a.nodes j).isSome = true)) := by
  intro ups
  induction ups with
  | nil =>
      intro a
      refine ⟨fun j => rfl, fun j => rfl, fun j x => ?_⟩
      simp
  | cons u0 rest ih =>
      intro a
      obtain ⟨ih1, ih2, ih3⟩ := ih (addDownstreamRef k a u0)
      have hfold : (u0 :: rest).foldl (addDownstreamRef k) a =
          rest.foldl (addDownstreamRef k) (addDownstreamRef k a u0) := rfl
      refine ⟨?_, ?_, ?_⟩
      · intro j
        rw [hfold, ih1, upstreamOf_addDownstreamRef]
      · intro j
        rw [hfold, ih2, isSome_addDownstreamRef]
      · intro j x
        have ih3' := ih3 j x
        rw [isSome_addDownstreamRef] at ih3'
        rw [hfold, ih3', downMem_addDownstreamRef, List.mem_cons]
        tauto

theorem downstreamOf_setUp (acc : GBS) (k : String) (ups : List String) (j : String) :
    downstreamOf { acc with
      nodes := updNode acc.nodes k (fun n => { n with upstreamNodes := ups }) } j =
      downstreamOf acc j := by
  unfold downstreamOf
  exact map_downstream_findNode_updNode acc.nodes k _ j (fun _ => rfl) (fun _ => rfl)

theorem isSome_setUp (acc : GBS) (k : String) (ups : List String) (j : String) :
    (findNode (updNode acc.nodes k (fun n => { n with upstreamNodes := ups })) j).isSome =
      (findNode acc.nodes j).isSome :=
  isSome_findNode_updNode acc.nodes k _ j (fun _ => rfl)

theorem upstreamOf_setUp (acc : GBS) (k : String) (ups : List String) (j : String) :
    upstreamOf { acc with
      nodes := updNode acc.nodes k (fun n => { n with upstreamNodes := ups }) } j =
      if j = k then (upstreamOf acc j).map (fun _ => ups) else upstreamOf acc j := by
  unfold upstreamOf
  rw [findNode_updNode acc.nodes k (fun n => { n with upstreamNodes := ups }) (fun _ => rfl) j]
  cases h : findNode acc.nodes j with
  | none => by_cases hj : j = k <;> simp [hj]
  | some n =>
      have hn : n.id = j := (findNode_mem _ _ _ h).2
      by_cases hj : j = k
      · subst hj
        simp [hn]
      · simp [hn, hj]

theorem downMem_congr_of_downstreamOf (g g' : GBS)
    (h : ∀ j, downstreamOf g' j = downstreamOf g j) (j x : String) :
    downMem g' j x ↔ downMem g j x := by
  unfold downMem
  rw [h j]

theorem setDepsStep_spec (acc : GBS) (kv : String × List String) :
    (∀ j, (findNode (setDepsStep acc kv).nodes j).isSome = (findNode acc.nodes j).isSome) ∧
    (∀ j, ¬j = kv.1 → upstreamOf (setDepsStep acc kv) j = upstreamOf acc j) ∧
    ((findNode acc.nodes kv.1).isSome = true →
      upstreamOf (setDepsStep acc kv) kv.1 = some kv.2) ∧
    (∀ j x, downMem (setDepsStep acc kv) j x ↔
      downMem acc j x ∨ (x = kv.1 ∧ j ∈ kv.2 ∧ (findNode acc.nodes kv.1).isSome = true ∧
        (findNode acc.nodes j).isSome = true)) := by
  unfold setDepsStep
  by_cases hr : (findNode acc.nodes kv.1).isSome = true
  · rw [if_pos hr]
    set up0 : GBS := { acc with
      nodes := updNode acc.nodes kv.1 (fun n => { n with upstreamNodes := kv.2 }) } with hup0
    obtain ⟨f1, f2, f3⟩ := innerFold_spec kv.1 kv.2 up0
    refine ⟨?_, ?_, ?_, ?_⟩
    · intro j
      rw [f2 j, hup0]
      exact isSome_setUp acc kv.1 kv.2 j
    · intro j hj
      rw [f1 j, hup0, upstreamOf_setUp, if_neg hj]
    · intro _
      rw [f1 kv.1, hup0, upstreamOf_setUp, if_pos rfl]
      obtain ⟨n, hn⟩ := Option.isSome_iff_exists.mp hr
      unfold upstreamOf
      rw [hn]
      rfl
    · intro j x
      have f3' := f3 j x
      have hdc := downMem_congr_of_downstreamOf acc up0
        (fun j' => by rw [hup0]; exact downstreamOf_setUp acc kv.1 kv.2 j') j x
      have his : (findNode up0.nodes j).isSome = (findNode acc.nodes j).isSome := by
        rw [hup0]
        exact isSome_setUp acc kv.1 kv.2 j
      rw [f3', hdc, his]
      constructor
      · rintro (h | ⟨hx, hm, hs⟩)
        · exact Or.inl h
        · exact Or.inr ⟨hx, hm, hr, hs⟩
      · rintro (h | ⟨hx, hm, -, hs⟩)
        · exact Or.inl h
        · exact Or.inr ⟨hx, hm, hs⟩
  · rw [if_neg hr]
    refine ⟨fun j => rfl, fun j _ => rfl, fun h => absurd h hr, ?_⟩
    intro j x
    constructor
    · exact Or.inl
    · rintro (h | ⟨-, -, hs, -⟩)
      · exact h
      · exact absurd hs hr

theorem setNodeDependencies_spec : ∀ (d : List (String × List String)) (g : GBS),
    (∀ j, (findNode (setNodeDependencies g d).nodes j).isSome = (findNode g.nodes j).isSome) ∧
    (∀ j, j ∉ d.map (·.1) → upstreamOf (setNodeDependencies g d) j = upstreamOf g j) ∧
    (∀ j x, downMem (setNodeDependencies g d) j x ↔
      downMem g j x ∨ ∃ kv ∈ d, kv.1 = x ∧ j ∈ kv.2 ∧
        (findNode g.nodes x).isSome = true ∧ (findNode g.nodes j).isSome = true) := by
  intro d
  induction d with
  | nil =>
      intro g
      refine ⟨fun j => rfl, fun j _ => rfl, fun j x => ?_⟩
      simp [setNodeDependencies]
  | cons kv0 d' ih =>
      intro g
      obtain ⟨s1, s2, s3, s4⟩ := setDepsStep_spec g kv0
      obtain ⟨ih1, ih2, ih3⟩ := ih (setDepsStep g kv0)
      have hfold : setNodeDependencies g (kv0 :: d') =
          setNodeDependencies (setDepsStep g kv0) d' := rfl
      refine ⟨?_, ?_, ?_⟩
      · intro j
        rw [hfold, ih1, s1]
      · intro j hj
        rw [List.map_cons] at hj
        have hj1 : ¬j = kv0.1 := fun he => hj (he ▸ List.mem_cons_self _ _)
        have hj2 : j ∉ d'.map (·.1) := fun hm => hj (List.mem_cons_of_mem _ hm)
        rw [hfold, ih2 j hj2, s2 j hj1]
      · intro j x
        have ih3' := ih3 j x
        have hreg : ∀ y, (findNode (setDepsStep g kv0).nodes y).isSome =
            (findNode g.nodes y).isSome := s1
        rw [hfold, ih3']
        constructor
        · rintro (hd | ⟨kv, hkv, hx, hm, hrx, hrj⟩)
          · rcases (s4 j x).mp hd with hd0 | ⟨hx, hm, hr1, hrj⟩
            · exact Or.inl hd0
            · exact Or.inr ⟨kv0, List.mem_cons_self _ _, hx.symm ▸ rfl, hm, hx ▸ hr1, hrj⟩
          · rw [hreg x] at hrx
            rw [hreg j] at hrj
            exact Or.inr ⟨kv, List.mem_cons_of_mem _ hkv, hx, hm, hrx, hrj⟩
        · rintro (hd | ⟨kv, hkv, hx, hm, hrx, hrj⟩)
          · exact Or.inl ((s4 j x).mpr (Or.inl hd))
          · rcases List.mem_cons.mp hkv with he | hm'
            · subst he
              exact Or.inl ((s4 j x).mpr (Or.inr ⟨hx.symm, hm, hx ▸ hrx, hrj⟩))
            · exact Or.inr ⟨kv, hm', hx, hm, by rw [hreg x]; exact hrx, by rw [hreg j]; exact hrj⟩

theorem setNodeDependencies_upstream_key : ∀ (d : List (String × List String)) (g : GBS),
    (d.map (·.1)).Nodup → ∀ kv ∈ d, (findNode g.nodes kv.1).isSome = true →
    upstreamOf (setNodeDependencies g d) kv.1 = some kv.2 := by
  intro d
  induction d with
  | nil => intro g _ kv hkv; cases hkv
  | cons kv0 d' ih =>
      intro g hnd kv hkv hreg
      rw [List.map_cons, List.nodup_cons] at hnd
      obtain ⟨s1, s2, s3, s4⟩ := setDepsStep_spec g kv0
      obtain ⟨f1, f2, f3⟩ := setNodeDependencies_spec d' (setDepsStep g kv0)
      have hfold : setNodeDependencies g (kv0 :: d') =
          setNodeDependencies (setDepsStep g kv0) d' := rfl
      rcases List.mem_cons.mp hkv with he | hm
      · subst he
        rw [hfold, f2 kv.1 hnd.1, s3 hreg]
      · rw [hfold]
        exact ih (setDepsStep g kv0) hnd.2 kv hm (by rw [s1]; exact hreg)

theorem ids_updNode (ns : List ExecutionNode) (i : String)
    (f : ExecutionNode → ExecutionNode) (hf : ∀ n, (f n).id = n.id) :
    (updNode ns i f).map (·.id) = ns.map (·.id) := by
  unfold updNode
  rw [List.map_map]
  refine List.map_congr_left ?_
  intro n _
  by_cases h : n.id = i <;> simp [h, hf]

theorem ids_addDownstreamRef (k : String) (a : GBS) (u : String) :
    (addDownstreamRef k a u).nodes.map (·.id) = a.nodes.map (·.id) := by
  unfold addDownstreamRef
  by_cases h : (findNode a.nodes u).isSome = true
  · rw [if_pos h]
    exact ids_updNode a.nodes u _ (fun n => addDownstreamRef_f_id k n)
  · rw [if_neg h]

theorem ids_setDepsStep (acc : GBS) (kv : String × List String) :
    (setDepsStep acc kv).nodes.map (·.id) = acc.nodes.map (·.id) := by
  unfold setDepsStep
  by_cases h : (findNode acc.nodes kv.1).isSome = true
  · rw [if_pos h]
    have hfold : ∀ (ups : List String) (a : GBS),
        (ups.foldl (addDownstreamRef kv.1) a).nodes.map (·.id) = a.nodes.map (·.id) := by
      intro ups
      induction ups with
      | nil => intro a; rfl
      | cons u0 us ihu =>
          intro a
          have : (u0 :: us).foldl (addDownstreamRef kv.1) a =
              us.foldl (addDownstreamRef kv.1) (addDownstreamRef kv.1 a u0) := rfl
          rw [this, ihu, ids_addDownstreamRef]
    rw [hfold]
    exact ids_updNode acc.nodes kv.1 _ (fun _ => rfl)
  · rw [if_neg h]

theorem ids_setNodeDependencies : ∀ (d : List (String × List String)) (g : GBS),
    (setNodeDependencies g d).nodes.map (·.id) = g.nodes.map (·.id) := by
  intro d
  induction d with
  | nil => intro g; rfl
  | cons kv0 d' ih =>
      intro g
      have hfold : setNodeDependencies g (kv0 :: d') =
          setNodeDependencies (setDepsStep g kv0) d' := rfl
      rw [hfold, ih, ids_setDepsStep]

theorem updNode_id (ns : List ExecutionNode) (i : String)
    (f : ExecutionNode → ExecutionNode) (h : ∀ n ∈ ns, n.id = i → f n = n) :
    updNode ns i f = ns := by
  unfold updNode
  have hcong : ∀ n ∈ ns, (if n.id = i then f n else n) = id n := by
    intro n hn
    by_cases hni : n.id = i
    · rw [if_pos hni, h n hn hni]
      rfl
    · rw [if_neg hni]
      rfl
  rw [List.map_congr_left hcong, List.map_id]

theorem setNodeDependencies_id : ∀ (d : List (String × List String)) (g1 : GBS),
    (∀ kv ∈ d, (findNode g1.nodes kv.1).isSome = true →
      (∀ n ∈ g1.nodes, n.id = kv.1 → n.upstreamNodes = kv.2) ∧
      (∀ u ∈ kv.2, ∀ n ∈ g1.nodes, n.id = u → kv.1 ∈ n.downstreamNodes)) →
    setNodeDependencies g1 d = g1 := by
  intro d
  induction d with
  | nil => intro g1 _; rfl
  | cons kv0 d' ih =>
      intro g1 H
      have hstep : setDepsStep g1 kv0 = g1 := by
        unfold setDepsStep
        by_cases hr : (findNode g1.nodes kv0.1).isSome = true
        · rw [if_pos hr]
          obtain ⟨H1, H2⟩ := H kv0 (List.mem_cons_self _ _) hr
          have hsetup : updNode g1.nodes kv0.1
              (fun n => { n with upstreamNodes := kv0.2 }) = g1.nodes := by
            refine updNode_id _ _ _ ?_
            intro n hn hni
            rw [← H1 n hn hni]
          have hinner : ∀ (ups : List String),
              (∀ u ∈ ups, ∀ n ∈ g1.nodes, n.id = u → kv0.1 ∈ n.downstreamNodes) →
              ups.foldl (addDownstreamRef kv0.1) g1 = g1 := by
            intro ups
            induction ups with
            | nil => intro _; rfl
            | cons u0 us ihu =>
                intro hU
                have hadd : addDownstreamRef kv0.1 g1 u0 = g1 := by
                  unfold addDownstreamRef
                  by_cases hru : (findNode g1.nodes u0).isSome = true
                  · rw [if_pos hru]
                    have hupd : updNode g1.nodes u0 (fun n =>
                        if kv0.1 ∈ n.downstreamNodes then n
                        else { n with downstreamNodes := n.downstreamNodes ++ [kv0.1] }) =
                        g1.nodes := by
                      refine updNode_id _ _ _ ?_
                      intro n hn hni
                      rw [if_pos (hU u0 (List.mem_cons_self _ _) n hn hni)]
                    rw [hupd]
                  · rw [if_neg hru]
                have hff : (u0 :: us).foldl (addDownstreamRef kv0.1) g1 =
                    us.foldl (addDownstreamRef kv0.1) (addDownstreamRef kv0.1 g1 u0) := rfl
                rw [hff, hadd]
                exact ihu (fun u hu => hU u (List.mem_cons_of_mem _ hu))
          have hbase : ({ g1 with
              nodes := updNode g1.nodes kv0.1 (fun n => { n with upstreamNodes := kv0.2 }) } :
                GBS) = g1 := by
            rw [hsetup]
          rw [hbase]
          exact hinner kv0.2 H2
        · rw [if_neg hr]
      have hfold : setNodeDependencies g1 (kv0 :: d') =
          setNodeDependencies (setDepsStep g1 kv0) d' := rfl
      rw [hfold, hstep]
      exact ih g1 (fun kv hkv => H kv (List.mem_cons_of_mem _ hkv))

/-- C9 (amended): after a single `set_node_dependencies` call on
freshly registered nodes (unique ids, all upstream/downstream lists
empty) with a duplicate-free dependency dictionary, the edge relation
is an exact structural inverse over the registered nodes; and repeating
the same call leaves the store — both lists included — unchanged.
(Across a *sequence* of calls the inverse can break: see the
counterexample.) -/
theorem C9_single_call_inverse_idem (g : GBS) (d : List (String × List String))
    (hnd : (g.nodes.map (·.id)).Nodup) (hkeys : (d.map (·.1)).Nodup)
    (hfresh : ∀ n ∈ g.nodes, n.upstreamNodes = [] ∧ n.downstreamNodes = []) :
    WFnodes (setNodeDependencies g d) ∧
    setNodeDependencies (setNodeDependencies g d) d = setNodeDependencies g d := by
  obtain ⟨sp1, sp2, sp3⟩ := setNodeDependencies_spec d g
  have hnd1 : ((setNodeDependencies g d).nodes.map (·.id)).Nodup := by
    rw [ids_setNodeDependencies]
    exact hnd
  have hfind1 : ∀ n ∈ (setNodeDependencies g d).nodes,
      findNode (setNodeDependencies g d).nodes n.id = some n :=
    fun n hn => findNode_eq_of_mem_nodup _ hnd1 n hn
  constructor
  · intro u hu v hv
    have hfu : findNode (setNodeDependencies g d).nodes u.id = some u := hfind1 u hu
    have hfv : findNode (setNodeDependencies g d).nodes v.id = some v := hfind1 v hv
    have hupv : upstreamOf (setNodeDependencies g d) v.id = some v.upstreamNodes := by
      unfold upstreamOf
      rw [hfv]
      rfl
    have hregu : (findNode g.nodes u.id).isSome = true := by
      rw [← sp1, hfu]
      rfl
    have hregv : (findNode g.nodes v.id).isSome = true := by
      rw [← sp1, hfv]
      rfl
    have hdm : v.id ∈ u.downstreamNodes ↔ downMem (setNodeDependencies g d) u.id v.id :=
      (downMem_iff_found _ u.id v.id u hfu).symm
    have hdg : ¬downMem g u.id v.id := by
      obtain ⟨u0, hu0⟩ := Option.isSome_iff_exists.mp hregu
      intro hd
      rw [downMem_iff_found g u.id v.id u0 hu0, (hfresh u0 (findNode_mem _ _ _ hu0).1).2] at hd
      exact absurd hd (List.not_mem_nil _)
    by_cases hvk : ∃ l, (v.id, l) ∈ d
    · obtain ⟨l0, hkv⟩ := hvk
      have hukey : upstreamOf (setNodeDependencies g d) v.id = some l0 :=
        setNodeDependencies_upstream_key d g hkeys (v.id, l0) hkv hregv
      have hvups : v.upstreamNodes = l0 := by
        rw [hupv] at hukey
        exact Option.some_inj.mp hukey
      rw [hvups, hdm, sp3 u.id v.id]
      constructor
      · intro hm
        exact Or.inr ⟨(v.id, l0), hkv, rfl, hm, hregv, hregu⟩
      · rintro (hd | ⟨⟨k1, l1⟩, hkv', hk1, hm', -, -⟩)
        · exact absurd hd hdg
        · have hl : l1 = l0 := by
            refine entry_unique d hkeys v.id l1 l0 ?_ hkv
            rw [← hk1]
            exact hkv'
          rw [← hl]
          exact hm'
    · have hvk' : v.id ∉ d.map (·.1) := by
        intro hm
        obtain ⟨kv, hkvm, hkv1⟩ := List.mem_map.mp hm
        exact hvk ⟨kv.2, by rw [← hkv1]; exact hkvm⟩
      obtain ⟨v0, hv0⟩ := Option.isSome_iff_exists.mp hregv
      have hupg : upstreamOf g v.id = some [] := by
        unfold upstreamOf
        rw [hv0]
        simp [(hfresh v0 (findNode_mem _ _ _ hv0).1).1]
      have hvup : v.upstreamNodes = [] := by
        have := (sp2 v.id hvk').trans hupg
        rw [hupv] at this
        exact Option.some_inj.mp this
      rw [hvup, hdm, sp3 u.id v.id]
      constructor
      · intro hm
        exact absurd hm (List.not_mem_nil _)
      · rintro (hd | ⟨kv', hkv', hk1, -, -, -⟩)
        · exact absurd hd hdg
        · exact absurd (hk1 ▸ List.mem_map_of_mem (·.1) hkv') hvk'
  · refine setNodeDependencies_id d (setNodeDependencies g d) ?_
    intro kv hkv hreg1
    have hregg : (findNode g.nodes kv.1).isSome = true := by
      rw [← sp1]
      exact hreg1
    constructor
    · intro n hn hni
      have hfn : findNode (setNodeDependencies g d).nodes kv.1 = some n := by
        rw [← hni]
        exact hfind1 n hn
      have hukey : upstreamOf (setNodeDependencies g d) kv.1 = some kv.2 :=
        setNodeDependencies_upstream_key d g hkeys kv hkv hregg
      unfold upstreamOf at hukey
      rw [hfn] at hukey
      simpa using hukey
    · intro u' hu' n hn hni
      have hfn : findNode (setNodeDependencies g d).nodes u' = some n := by
        rw [← hni]
        exact hfind1 n hn
      have hdm : downMem (setNodeDependencies g d) u' kv.1 := by
        rw [sp3 u' kv.1]
        refine Or.inr ⟨kv, hkv, rfl, hu', hregg, ?_⟩
        rw [← sp1, hfn]
        rfl
      rw [downMem_iff_found _ u' kv.1 n hfn] at hdm
      exact hdm

theorem C9_witness :
    WFnodes (setNodeDependencies gUV [("v", ["u"])]) ∧
    setNodeDependencies (setNodeDependencies gUV [("v", ["u"])]) [("v", ["u"])] =
      setNodeDependencies gUV [("v", ["u"])] :=
  C9_single_call_inverse_idem gUV [("v", ["u"])] (by decide) (by decide) (by decide)

/-! ## Claim C7 — structural preservation of the scheduler operations -/

theorem ids_updateStateCore (g : GBS) (i : String) (s : NodeState) :
    (updateStateCore g i s).nodes.map (·.id) = g.nodes.map (·.id) := by
  unfold updateStateCore
  cases h : findNode g.nodes i with
  | none => rfl
  | some n => exact ids_updNode g.nodes i _ (fun m => applyStateStamp_id _ _ m)

theorem ids_triggerStep (acc : GBS) (did : String) :
    (triggerStep acc did).nodes.map (·.id) = acc.nodes.map (·.id) := by
  unfold triggerStep
  cases h : findNode acc.nodes did with
  | none => rfl
  | some dn =>
      dsimp only
      by_cases hg : allDepsCompleted acc.nodes dn = true
      · rw [if_pos hg, ids_updateStateCore]
        exact ids_updNode acc.nodes did _ (fun _ => rfl)
      · rw [if_neg hg]

theorem ids_triggerFold : ∀ (L : List String) (g : GBS),
    (L.foldl triggerStep g).nodes.map (·.id) = g.nodes.map (·.id) := by
  intro L
  induction L with
  | nil => intro g; rfl
  | cons did0 L' ih =>
      intro g
      have : (did0 :: L').foldl triggerStep g = L'.foldl triggerStep (triggerStep g did0) := rfl
      rw [this, ih, ids_triggerStep]

theorem ids_updateState (g : GBS) (i : String) (s : NodeState) :
    (updateState g i s).nodes.map (·.id) = g.nodes.map (·.id) := by
  unfold updateState triggerDownstream
  by_cases hs : s = .completed
  · rw [if_pos hs]
    cases h : findNode (updateStateCore g i s).nodes i with
    | none => exact ids_updateStateCore g i s
    | some cn => rw [ids_triggerFold, ids_updateStateCore]
  · rw [if_neg hs]
    exact ids_updateStateCore g i s

theorem ids_setResult (g : GBS) (i r : String) :
    (setResult g i r).nodes.map (·.id) = g.nodes.map (·.id) := by
  unfold setResult
  exact ids_updNode g.nodes i _ (fun _ => rfl)

theorem ids_setError (g : GBS) (i e : String) :
    (setError g i e).nodes.map (·.id) = g.nodes.map (·.id) := by
  unfold setError
  exact ids_updNode g.nodes i _ (fun _ => rfl)

theorem ids_executeNode (exec : ExecutionNode → Except String String) (g : GBS) (i : String) :
    (executeNode exec g i).nodes.map (·.id) = g.nodes.map (·.id) := by
  unfold executeNode
  cases h : findNode g.nodes i with
  | none => rfl
  | some n =>
      dsimp only
      cases exec n with
      | ok r => rw [ids_updateState, ids_setResult]
      | error e => rw [ids_updateState, ids_setError]

theorem ids_markFold : ∀ (R : List String) (g : GBS),
    ((R.foldl (fun acc i => updateState acc i .executing) g).nodes.map (·.id)) =
      g.nodes.map (·.id) := by
  intro R
  induction R with
  | nil => intro g; rfl
  | cons i0 R' ih =>
      intro g
      have : (i0 :: R').foldl (fun acc i => updateState acc i .executing) g =
          R'.foldl (fun acc i => updateState acc i .executing) (updateState g i0 .executing) := rfl
      rw [this, ih, ids_updateState]

theorem ids_completeAll (exec : ExecutionNode → Except String String) :
    ∀ (pend : List String) (g : GBS),
    ((pend.foldl (executeNode exec) g).nodes.map (·.id)) = g.nodes.map (·.id) := by
  intro pend
  induction pend with
  | nil => intro g; rfl
  | cons i0 pend' ih =>
      intro g
      have : (i0 :: pend').foldl (executeNode exec) g =
          pend'.foldl (executeNode exec) (executeNode exec g i0) := rfl
      rw [this, ih, ids_executeNode]

theorem ids_runRound (exec : ExecutionNode → Except String String) (g : GBS) :
    (runRound exec g).nodes.map (·.id) = g.nodes.map (·.id) := by
  unfold runRound
  rw [ids_completeAll, ids_markFold]

theorem ids_execLoop (exec : ExecutionNode → Except String String) :
    ∀ (fuel : Nat) (g : GBS),
    ((execLoop exec fuel g).1.nodes.map (·.id)) = g.nodes.map (·.id) := by
  intro fuel
  induction fuel with
  | zero => intro g; rfl
  | succ fuel ih =>
      intro g
      unfold execLoop
      by_cases h1 : (readyIds g).isEmpty = true
      · rw [if_pos h1]
        by_cases h2 : allDoneCheck g = true
        · rw [if_pos h2]
        · rw [if_neg h2]
          exact ih g
      · rw [if_neg h1]
        rw [ih (runRound exec g), ids_runRound]

theorem readyIds_iff (g : GBS) (hnd : (g.nodes.map (·.id)).Nodup) (j : String) :
    j ∈ readyIds g ↔ stateOf g j = some .ready := by
  unfold readyIds
  constructor
  · intro hj
    obtain ⟨n, hn, hnj⟩ := List.mem_map.mp hj
    have hmem := List.mem_of_mem_filter hn
    have hst : n.state = .ready := by
      have := List.of_mem_filter hn
      simpa using this
    rw [← hnj]
    rw [stateOf_eq_some_state g n.id n (findNode_eq_of_mem_nodup _ hnd n hmem), hst]
  · intro hj
    obtain ⟨n, hn, hns⟩ := Option.map_eq_some'.mp hj
    obtain ⟨hmem, hid⟩ := findNode_mem _ _ _ hn
    refine List.mem_map.mpr ⟨n, ?_, hid⟩
    refine List.mem_filter.mpr ⟨hmem, ?_⟩
    simp [hns]

theorem readyIds_nodup (g : GBS) (hnd : (g.nodes.map (·.id)).Nodup) :
    (readyIds g).Nodup := by
  unfold readyIds
  have hsub : List.Sublist ((g.nodes.filter (fun n => decide (n.state = .ready))).map (·.id))
      (g.nodes.map (·.id)) :=
    (List.filter_sublist g.nodes).map (·.id)
  exact hnd.sublist hsub

theorem findNode_isSome_iff (ns : List ExecutionNode) (i : String) :
    (findNode ns i).isSome = true ↔ i ∈ ns.map (·.id) := by
  unfold findNode
  rw [List.find?_isSome]
  constructor
  · rintro ⟨n, hn, hni⟩
    exact List.mem_map.mpr ⟨n, hn, by simpa using hni⟩
  · intro h
    obtain ⟨n, hn, hni⟩ := List.mem_map.mp h
    exact ⟨n, hn, by simpa using hni⟩

/-- The EXECUTING marking pass of a dispatch round: every listed READY
node is set EXECUTING, nothing else changes, and the invariants are
preserved. -/
theorem markFold_spec : ∀ (R : List String) (g : GBS),
    (∀ j ∈ R, stateOf g j = some .ready) → R.Nodup → Jinv g → WFinv g →
    Jinv (R.foldl (fun acc i => updateState acc i .executing) g) ∧
    WFinv (R.foldl (fun acc i => updateState acc i .executing) g) ∧
    (∀ j ∈ R, stateOf (R.foldl (fun acc i => updateState acc i .executing) g) j =
        some .executing) ∧
    (∀ j, ¬j ∈ R → stateOf (R.foldl (fun acc i => updateState acc i .executing) g) j =
        stateOf g j) ∧
    (∀ j, upstreamOf (R.foldl (fun acc i => updateState acc i .executing) g) j =
        upstreamOf g j) ∧
    (∀ j, downstreamOf (R.foldl (fun acc i => updateState acc i .executing) g) j =
        downstreamOf g j) := by
  intro R
  induction R with
  | nil =>
      intro g _ _ hJ hW
      refine ⟨hJ, hW, ?_, fun j _ => rfl, fun j => rfl, fun j => rfl⟩
      intro j hj
      cases hj
  | cons i0 R' ih =>
      intro g hready hnd hJ hW
      have hready0 : stateOf g i0 = some .ready := hready i0 (List.mem_cons_self i0 R')
      have hi0R' : ¬i0 ∈ R' := (List.nodup_cons.mp hnd).1
      have hndR' : R'.Nodup := (List.nodup_cons.mp hnd).2
      have hfold : (i0 :: R').foldl (fun acc i => updateState acc i .executing) g =
          R'.foldl (fun acc i => updateState acc i .executing) (updateState g i0 .executing) :=
        rfl
      set g1 := updateState g i0 .executing with hg1
      have hst1 : ∀ j, stateOf g1 j =
          if j = i0 then (stateOf g i0).map (fun _ => NodeState.executing)
          else stateOf g j :=
        stateOf_updateState_ne_completed g i0 .executing (by decide)
      have hup1 : ∀ j, upstreamOf g1 j = upstreamOf g j :=
        upstreamOf_updateState_ne_completed g i0 .executing (by decide)
      have hdown1 : ∀ j, downstreamOf g1 j = downstreamOf g j :=
        downstreamOf_updateState_ne_completed g i0 .executing (by decide)
      have hst1i0 : stateOf g1 i0 = some .executing := by
        rw [hst1, if_pos rfl, hready0]
        rfl
      have hpres := updateState_noncompleted_preserves g i0 .executing (by decide)
        (by rw [hready0]; simp)
        (fun _ ups hups u hu => hJ i0 (Or.inl hready0) ups hups u hu) hJ hW
      have hreadyR' : ∀ j ∈ R', stateOf g1 j = some .ready := by
        intro j hj
        have hji : ¬j = i0 := fun h => hi0R' (h ▸ hj)
        rw [hst1, if_neg hji]
        exact hready j (List.mem_cons_of_mem _ hj)
      obtain ⟨ihJ, ihW, ihmem, ihother, ihup, ihdown⟩ :=
        ih g1 hreadyR' hndR' hpres.1 hpres.2
      rw [hfold]
      refine ⟨ihJ, ihW, ?_, ?_, ?_, ?_⟩
      · intro j hj
        rcases List.mem_cons.mp hj with hj0 | hjR
        · rw [hj0, ihother i0 hi0R']
          exact hst1i0
        · exact ihmem j hjR
      · intro j hj
        have hji : ¬j = i0 := fun h => hj (h ▸ List.mem_cons_self i0 R')
        have hjR : ¬j ∈ R' := fun h => hj (List.mem_cons_of_mem _ h)
        rw [ihother j hjR, hst1, if_neg hji]
      · intro j
        rw [ihup j, hup1 j]
      · intro j
        rw [ihdown j, hdown1 j]

/-- The completion pass of a dispatch round: running an
always-succeeding executor over the pending (EXECUTING) node set
completes exactly the pending set, preserves the invariants and the
edge structure, persists COMPLETED nodes, leaves no EXECUTING or FAILED
node, and restores the readiness invariant without a pending escape
clause. -/
theorem completeAll_spec (exec : ExecutionNode → Except String String)
    (hexec : ∀ n, ∃ r, exec n = Except.ok r) :
    ∀ (pend : List String) (g : GBS),
    pend.Nodup → Jinv g → WFinv g →
    (∀ j ∈ pend, stateOf g j = some .executing) →
    (∀ i s, stateOf g i = some s →
      s = .idle ∨ s = .ready ∨ s = .completed ∨ i ∈ pend) →
    (∀ i ups, upstreamOf g i = some ups → depsDone g ups = true →
      stateOf g i = some .ready ∨ stateOf g i = some .completed ∨ i ∈ pend) →
    Jinv (pend.foldl (executeNode exec) g) ∧
    WFinv (pend.foldl (executeNode exec) g) ∧
    (∀ j ∈ pend, stateOf (pend.foldl (executeNode exec) g) j = some .completed) ∧
    (∀ j, stateOf g j = some .completed →
      stateOf (pend.foldl (executeNode exec) g) j = some .completed) ∧
    (∀ i s, stateOf (pend.foldl (executeNode exec) g) i = some s →
      s = .idle ∨ s = .ready ∨ s = .completed) ∧
    (∀ i ups, upstreamOf (pend.foldl (executeNode exec) g) i = some ups →
      depsDone (pend.foldl (executeNode exec) g) ups = true →
      stateOf (pend.foldl (executeNode exec) g) i = some .ready ∨
      stateOf (pend.foldl (executeNode exec) g) i = some .completed) ∧
    (∀ j, upstreamOf (pend.foldl (executeNode exec) g) j = upstreamOf g j) ∧
    (∀ j, downstreamOf (pend.foldl (executeNode exec) g) j = downstreamOf g j) := by
  intro pend
  induction pend with
  | nil =>
      intro g _ hJ hW _ hB1 hB3
      refine ⟨hJ, hW, ?_, fun j h => h, ?_, ?_, fun j => rfl, fun j => rfl⟩
      · intro j hj
        cases hj
      · intro i s hs
        rcases hB1 i s hs with h | h | h | h
        · exact Or.inl h
        · exact Or.inr (Or.inl h)
        · exact Or.inr (Or.inr h)
        · cases h
      · intro i ups hups hdd
        rcases hB3 i ups hups hdd with h | h | h
        · exact Or.inl h
        · exact Or.inr h
        · cases h
  | cons i0 pend' ih =>
      intro g hnd hJ hW hpend hB1 hB3
      have hi0p : ¬i0 ∈ pend' := (List.nodup_cons.mp hnd).1
      have hndp : pend'.Nodup := (List.nodup_cons.mp hnd).2
      have hx0 : stateOf g i0 = some .executing := hpend i0 (List.mem_cons_self i0 pend')
      obtain ⟨n, hn, hns⟩ := Option.map_eq_some'.mp hx0
      obtain ⟨r, hr⟩ := hexec n
      have hstep : executeNode exec g i0 = updateState (setResult g i0 r) i0 .completed := by
        unfold executeNode
        rw [hn]
        dsimp only
        rw [hr]
      have hx0s : stateOf (setResult g i0 r) i0 = some .executing := by
        rw [stateOf_setResult]
        exact hx0
      obtain ⟨c1, c2, c3, c4, c5, c6, c7, c8⟩ :=
        updateState_completed_spec (setResult g i0 r) i0
          (Jinv_setResult g i0 r hJ) (WFinv_setResult g i0 r hW) hx0s
      set g1 := updateState (setResult g i0 r) i0 .completed with hg1
      have hc3 : ∀ j, stateOf g1 j = some .completed ↔
          (stateOf g j = some .completed ∨ j = i0) := by
        intro j
        rw [← stateOf_setResult g i0 r j]
        exact c3 j
      have hc6 : ∀ j, ¬j = i0 →
          stateOf g1 j = stateOf g j ∨ stateOf g1 j = some .ready := by
        intro j hj
        rcases c6 j hj with h | h
        · rw [stateOf_setResult] at h
          exact Or.inl h
        · exact Or.inr h
      have hc8 : ∀ j, stateOf g1 j = some .executing ↔
          (stateOf g j = some .executing ∧ ¬j = i0) := by
        intro j
        rw [← stateOf_setResult g i0 r j]
        exact c8 j
      have hup1 : ∀ j, upstreamOf g1 j = upstreamOf g j := by
        intro j
        rw [c4 j, upstreamOf_setResult]
      have hdown1 : ∀ j, downstreamOf g1 j = downstreamOf g j := by
        intro j
        rw [c5 j, downstreamOf_setResult]
      have hcomp1 : stateOf g1 i0 = some .completed := (hc3 i0).mpr (Or.inr rfl)
      -- hypotheses of the induction at the updated store
      have hpend1 : ∀ j ∈ pend', stateOf g1 j = some .executing := by
        intro j hj
        exact (hc8 j).mpr ⟨hpend j (List.mem_cons_of_mem _ hj), fun h => hi0p (h ▸ hj)⟩
      have hB1' : ∀ i s, stateOf g1 i = some s →
          s = .idle ∨ s = .ready ∨ s = .completed ∨ i ∈ pend' := by
        intro i s hs
        by_cases hip : i ∈ pend'
        · exact Or.inr (Or.inr (Or.inr hip))
        by_cases hii0 : i = i0
        · subst hii0
          rw [hcomp1] at hs
          injection hs with hs'
          exact Or.inr (Or.inr (Or.inl hs'.symm))
        rcases hc6 i hii0 with heq | hrd
        · rw [heq] at hs
          rcases hB1 i s hs with h | h | h | h
          · exact Or.inl h
          · exact Or.inr (Or.inl h)
          · exact Or.inr (Or.inr (Or.inl h))
          · rcases List.mem_cons.mp h with h' | h'
            · exact absurd h' hii0
            · exact absurd h' hip
        · rw [hrd] at hs
          injection hs with hs'
          exact Or.inr (Or.inl hs'.symm)
      have hB3' : ∀ i ups, upstreamOf g1 i = some ups → depsDone g1 ups = true →
          stateOf g1 i = some .ready ∨ stateOf g1 i = some .completed ∨ i ∈ pend' := by
        intro i ups hups hdd
        rw [hup1] at hups
        have hall1 : ∀ u ∈ ups, stateOf g1 u = some .completed :=
          (depsDone_true_iff g1 ups).mp hdd
        by_cases hip : i ∈ pend'
        · exact Or.inr (Or.inr hip)
        by_cases hii0 : i = i0
        · subst hii0
          exact Or.inr (Or.inl hcomp1)
        by_cases hallg : ∀ u ∈ ups, stateOf g u = some .completed
        · have hddg : depsDone g ups = true := (depsDone_true_iff g ups).mpr hallg
          rcases hB3 i ups hups hddg with h | h | h
          · rcases hc6 i hii0 with heq | hrd
            · rw [heq, h]
              exact Or.inl rfl
            · exact Or.inl hrd
          · exact Or.inr (Or.inl ((hc3 i).mpr (Or.inl h)))
          · rcases List.mem_cons.mp h with h' | h'
            · exact absurd h' hii0
            · exact absurd h' hip
        · push_neg at hallg
          obtain ⟨u, hu, hune⟩ := hallg
          have hui0 : u = i0 := by
            rcases (hc3 u).mp (hall1 u hu) with h | h
            · exact absurd h hune
            · exact h
          have hdowng : downstreamOf g i0 = some n.downstreamNodes := by
            unfold downstreamOf
            rw [hn]
            rfl
          have hmemdown : i ∈ n.downstreamNodes :=
            (hW i i0 ups n.downstreamNodes hups hdowng).mp (hui0 ▸ hu)
          have hdowng0 : downstreamOf (setResult g i0 r) i0 = some n.downstreamNodes := by
            rw [downstreamOf_setResult]
            exact hdowng
          have hups0 : upstreamOf (setResult g i0 r) i = some ups := by
            rw [upstreamOf_setResult]
            exact hups
          have hguard : ∀ v ∈ ups, v = i0 ∨
              stateOf (setResult g i0 r) v = some .completed := by
            intro v hv
            rcases (hc3 v).mp (hall1 v hv) with h | h
            · right
              rw [stateOf_setResult]
              exact h
            · exact Or.inl h
          exact Or.inl (c7 n.downstreamNodes hdowng0 i hmemdown ups hups0 hguard)
      obtain ⟨ihJ, ihW, ihmem, ihpersist, ihB1, ihB3, ihup, ihdown⟩ :=
        ih g1 hndp c1 c2 hpend1 hB1' hB3'
      have hfold : (i0 :: pend').foldl (executeNode exec) g =
          pend'.foldl (executeNode exec) g1 := by
        have : (i0 :: pend').foldl (executeNode exec) g =
            pend'.foldl (executeNode exec) (executeNode exec g i0) := rfl
        rw [this, hstep]
      rw [hfold]
      refine ⟨ihJ, ihW, ?_, ?_, ihB1, ihB3, ?_, ?_⟩
      · intro j hj
        rcases List.mem_cons.mp hj with hj0 | hjp
        · rw [hj0]
          exact ihpersist i0 hcomp1
        · exact ihmem j hjp
      · intro j hj
        exact ihpersist j ((hc3 j).mpr (Or.inl hj))
      · intro j
        rw [ihup j, hup1 j]
      · intro j
        rw [ihdown j, hdown1 j]

/-- A full dispatch round of `execute_dag` (mark all READY nodes
EXECUTING, then run them all to completion): every node that was READY
ends COMPLETED, COMPLETED nodes persist, the invariants and edges are
preserved, and the store again contains only IDLE, READY and COMPLETED
nodes with every dependency-satisfied node READY or COMPLETED. -/
theorem runRound_spec (exec : ExecutionNode → Except String String)
    (hexec : ∀ n, ∃ r, exec n = Except.ok r) (g : GBS)
    (hnd : (g.nodes.map (·.id)).Nodup) (hJ : Jinv g) (hW : WFinv g)
    (hB1 : ∀ i s, stateOf g i = some s → s = .idle ∨ s = .ready ∨ s = .completed)
    (hB3 : ∀ i ups, upstreamOf g i = some ups → depsDone g ups = true →
      stateOf g i = some .ready ∨ stateOf g i = some .completed) :
    Jinv (runRound exec g) ∧ WFinv (runRound exec g) ∧
    (∀ j ∈ readyIds g, stateOf (runRound exec g) j = some .completed) ∧
    (∀ j, stateOf g j = some .completed →
      stateOf (runRound exec g) j = some .completed) ∧
    (∀ i s, stateOf (runRound exec g) i = some s →
      s = .idle ∨ s = .ready ∨ s = .completed) ∧
    (∀ i ups, upstreamOf (runRound exec g) i = some ups →
      depsDone (runRound exec g) ups = true →
      stateOf (runRound exec g) i = some .ready ∨
      stateOf (runRound exec g) i = some .completed) ∧
    (∀ j, upstreamOf (runRound exec g) j = upstreamOf g j) ∧
    (∀ j, downstreamOf (runRound exec g) j = downstreamOf g j) := by
  set l := readyIds g with hl
  have hreadymem : ∀ j ∈ l, stateOf g j = some .ready :=
    fun j hj => (readyIds_iff g hnd j).mp hj
  have hlnd : l.Nodup := readyIds_nodup g hnd
  obtain ⟨m1, m2, m3, m4, m5, m6⟩ := markFold_spec l g hreadymem hlnd hJ hW
  set g1 := l.foldl (fun acc i => updateState acc i .executing) g with hg1
  have hB1g1 : ∀ i s, stateOf g1 i = some s →
      s = .idle ∨ s = .ready ∨ s = .completed ∨ i ∈ l := by
    intro i s hs
    by_cases hil : i ∈ l
    · exact Or.inr (Or.inr (Or.inr hil))
    · rw [m4 i hil] at hs
      rcases hB1 i s hs with h | h | h
      · exact Or.inl h
      · exact Or.inr (Or.inl h)
      · exact Or.inr (Or.inr (Or.inl h))
  have hB3g1 : ∀ i ups, upstreamOf g1 i = some ups → depsDone g1 ups = true →
      stateOf g1 i = some .ready ∨ stateOf g1 i = some .completed ∨ i ∈ l := by
    intro i ups hups hdd
    rw [m5 i] at hups
    have hall1 : ∀ u ∈ ups, stateOf g1 u = some .completed :=
      (depsDone_true_iff g1 ups).mp hdd
    have hallg : ∀ u ∈ ups, stateOf g u = some .completed := by
      intro u hu
      have hul : ¬u ∈ l := by
        intro hul
        have := m3 u hul
        rw [hall1 u hu] at this
        cases this
      rw [← m4 u hul]
      exact hall1 u hu
    have hddg : depsDone g ups = true := (depsDone_true_iff g ups).mpr hallg
    rcases hB3 i ups hups hddg with h | h
    · exact Or.inr (Or.inr ((readyIds_iff g hnd i).mpr h))
    · have hil : ¬i ∈ l := by
        intro hil
        rw [hreadymem i hil] at h
        cases h
      rw [m4 i hil]
      exact Or.inr (Or.inl h)
  obtain ⟨a1, a2, a3, a4, a5, a6, a7, a8⟩ :=
    completeAll_spec exec hexec l g1 hlnd m1 m2 m3 hB1g1 hB3g1
  have hrr : runRound exec g = l.foldl (executeNode exec) g1 := rfl
  rw [hrr]
  refine ⟨a1, a2, a3, ?_, a5, a6, ?_, ?_⟩
  · intro j hj
    have hjl : ¬j ∈ l := by
      intro hjl
      rw [hreadymem j hjl] at hj
      cases hj
    refine a4 j ?_
    rw [m4 j hjl]
    exact hj
  · intro j
    rw [a7 j, m5 j]
  · intro j
    rw [a8 j, m6 j]

/-- Liveness of the dispatch protocol under a graded level function: as
long as some registered node is not COMPLETED, some registered node is
READY. -/
theorem progress_lemma (g : GBS) (lvl : String → Nat)
    (hreg : ∀ i ups, upstreamOf g i = some ups → ∀ u ∈ ups,
      (findNode g.nodes u).isSome = true)
    (hgr : ∀ i ups, upstreamOf g i = some ups → ∀ u ∈ ups, lvl u < lvl i)
    (hB3 : ∀ i ups, upstreamOf g i = some ups → depsDone g ups = true →
      stateOf g i = some .ready ∨ stateOf g i = some .completed) :
    ∀ N i s, lvl i ≤ N → stateOf g i = some s → ¬s = .completed →
      ∃ j, stateOf g j = some .ready := by
  intro N
  induction N with
  | zero =>
      intro i s hlvl hs hsne
      obtain ⟨n, hn, hns⟩ := Option.map_eq_some'.mp hs
      have hups : upstreamOf g i = some n.upstreamNodes := by
        unfold upstreamOf
        rw [hn]
        rfl
      by_cases hdd : depsDone g n.upstreamNodes = true
      · rcases hB3 i n.upstreamNodes hups hdd with h | h
        · exact ⟨i, h⟩
        · rw [hs] at h
          injection h with h'
          exact absurd h' hsne
      · exfalso
        rw [depsDone_true_iff] at hdd
        push_neg at hdd
        obtain ⟨u, hu, -⟩ := hdd
        have := hgr i n.upstreamNodes hups u hu
        omega
  | succ N ihN =>
      intro i s hlvl hs hsne
      obtain ⟨n, hn, hns⟩ := Option.map_eq_some'.mp hs
      have hups : upstreamOf g i = some n.upstreamNodes := by
        unfold upstreamOf
        rw [hn]
        rfl
      by_cases hdd : depsDone g n.upstreamNodes = true
      · rcases hB3 i n.upstreamNodes hups hdd with h | h
        · exact ⟨i, h⟩
        · rw [hs] at h
          injection h with h'
          exact absurd h' hsne
      · rw [depsDone_true_iff] at hdd
        push_neg at hdd
        obtain ⟨u, hu, hune⟩ := hdd
        have hlvlu : lvl u < lvl i := hgr i n.upstreamNodes hups u hu
        have husome : (findNode g.nodes u).isSome = true :=
          hreg i n.upstreamNodes hups u hu
        obtain ⟨m, hm⟩ := Option.isSome_iff_exists.mp husome
        have hstu : stateOf g u = some m.state := by
          unfold stateOf
          rw [hm]
          rfl
        refine ihN u m.state (by omega) hstu ?_
        intro hmc
        exact hune (by rw [hstu, hmc])

theorem stateOf_isSome_iff_mem (g : GBS) (i : String) :
    (stateOf g i).isSome = true ↔ i ∈ g.nodes.map (·.id) := by
  rw [← findNode_isSome_iff g.nodes i]
  unfold stateOf
  cases findNode g.nodes i <;> simp

/-- The main loop of `execute_dag` under an always-succeeding executor
and a graded level function bounded by `d`: given the round invariants
and that every node of level below `rd` is already COMPLETED, the loop
drives every registered node to COMPLETED and performs at most `d - rd`
further dispatching rounds. -/
theorem execLoop_spec (exec : ExecutionNode → Except String String)
    (hexec : ∀ n, ∃ r, exec n = Except.ok r) (lvl : String → Nat) (d : Nat) :
    ∀ fuel rd g,
    (g.nodes.map (·.id)).Nodup → Jinv g → WFinv g →
    (∀ i s, stateOf g i = some s → s = .idle ∨ s = .ready ∨ s = .completed) →
    (∀ i ups, upstreamOf g i = some ups → depsDone g ups = true →
      stateOf g i = some .ready ∨ stateOf g i = some .completed) →
    (∀ i ups, upstreamOf g i = some ups → ∀ u ∈ ups,
      (findNode g.nodes u).isSome = true) →
    (∀ i ups, upstreamOf g i = some ups → ∀ u ∈ ups, lvl u < lvl i) →
    (∀ i, (findNode g.nodes i).isSome = true → lvl i < d) →
    (∀ i s, stateOf g i = some s → lvl i < rd → s = .completed) →
    d ≤ fuel + rd → rd ≤ d →
    (∀ i s, stateOf (execLoop exec fuel g).1 i = some s → s = .completed) ∧
    (execLoop exec fuel g).2 + rd ≤ d := by
  intro fuel
  induction fuel with
  | zero =>
      intro rd g hnd hJ hW hB1 hB3 hreg hgr hbound hB4 hfr hrd
      have hcl : execLoop exec 0 g = (g, 0) := rfl
      rw [hcl]
      refine ⟨?_, ?_⟩
      · intro i s hs
        have hsome : (stateOf g i).isSome = true := by rw [hs]; rfl
        have hfn : (findNode g.nodes i).isSome = true :=
          (findNode_isSome_iff g.nodes i).mpr ((stateOf_isSome_iff_mem g i).mp hsome)
        exact hB4 i s hs (by have := hbound i hfn; omega)
      · show 0 + rd ≤ d
        omega
  | succ fuel ih =>
      intro rd g hnd hJ hW hB1 hB3 hreg hgr hbound hB4 hfr hrd
      by_cases h1 : (readyIds g).isEmpty = true
      · by_cases h2 : allDoneCheck g = true
        · have hloop : execLoop exec (fuel + 1) g = (g, 0) := by
            unfold execLoop
            rw [if_pos h1, if_pos h2]
          rw [hloop]
          refine ⟨?_, ?_⟩
          · intro i s hs
            obtain ⟨n, hn, hns⟩ := Option.map_eq_some'.mp hs
            have hmem := (findNode_mem _ _ _ hn).1
            unfold allDoneCheck at h2
            rw [List.all_eq_true] at h2
            have hor := h2 n hmem
            simp only [Bool.or_eq_true, decide_eq_true_eq] at hor
            rcases hor with hc | hf
            · rw [← hns]
              exact hc
            · rw [hns] at hf
              rcases hB1 i s hs with h | h | h <;> (rw [hf] at h; cases h)
          · show 0 + rd ≤ d
            omega
        · exfalso
          unfold allDoneCheck at h2
          rw [List.all_eq_true] at h2
          push_neg at h2
          obtain ⟨n, hmem, hne⟩ := h2
          simp at hne
          have hfn : findNode g.nodes n.id = some n :=
            findNode_eq_of_mem_nodup g.nodes hnd n hmem
          have hst : stateOf g n.id = some n.state := stateOf_eq_some_state g n.id n hfn
          obtain ⟨j, hj⟩ := progress_lemma g lvl hreg hgr hB3 (lvl n.id) n.id n.state
            (le_refl _) hst hne.1
          have hjr : j ∈ readyIds g := (readyIds_iff g hnd j).mpr hj
          have hnil : readyIds g = [] := by
            cases hrl : readyIds g with
            | nil => rfl
            | cons a t => rw [hrl] at h1; exact Bool.noConfusion h1
          rw [hnil] at hjr
          cases hjr
      · obtain ⟨j0, hj0mem⟩ : ∃ j, j ∈ readyIds g := by
          cases hrl : readyIds g with
          | nil => rw [hrl] at h1; exact absurd rfl h1
          | cons a t => exact ⟨a, List.mem_cons_self a t⟩
        have hj0 : stateOf g j0 = some .ready := (readyIds_iff g hnd j0).mp hj0mem
        have hrdlt : rd < d := by
          have hnotc : ¬lvl j0 < rd := by
            intro hlt
            have := hB4 j0 .ready hj0 hlt
            cases this
          have hsome : (stateOf g j0).isSome = true := by rw [hj0]; rfl
          have hfn : (findNode g.nodes j0).isSome = true :=
            (findNode_isSome_iff g.nodes j0).mpr ((stateOf_isSome_iff_mem g j0).mp hsome)
          have := hbound j0 hfn
          omega
        obtain ⟨q1, q2, q3, q4, q5, q6, q7, q8⟩ := runRound_spec exec hexec g hnd hJ hW hB1 hB3
        set g' := runRound exec g with hg'
        have hids : g'.nodes.map (·.id) = g.nodes.map (·.id) := ids_runRound exec g
        have hsomeiff : ∀ u, (findNode g'.nodes u).isSome = true ↔
            (findNode g.nodes u).isSome = true := by
          intro u
          rw [findNode_isSome_iff, findNode_isSome_iff, hids]
        have hB4' : ∀ i s, stateOf g' i = some s → lvl i < rd + 1 → s = .completed := by
          intro i s hs hlt
          have hsome' : (stateOf g' i).isSome = true := by rw [hs]; rfl
          have hfng : (findNode g.nodes i).isSome = true := by
            rw [findNode_isSome_iff, ← hids]
            exact (stateOf_isSome_iff_mem g' i).mp hsome'
          obtain ⟨m, hm⟩ := Option.isSome_iff_exists.mp hfng
          have hstg : stateOf g i = some m.state := stateOf_eq_some_state g i m hm
          rcases Nat.lt_succ_iff_lt_or_eq.mp hlt with hlt' | heq
          · have hmc : m.state = .completed := hB4 i m.state hstg hlt'
            have hc := q4 i (by rw [hstg, hmc])
            rw [hs] at hc
            injection hc with hc'
          · have hups : upstreamOf g i = some m.upstreamNodes := by
              unfold upstreamOf
              rw [hm]
              rfl
            have hdd : depsDone g m.upstreamNodes = true := by
              rw [depsDone_true_iff]
              intro u hu
              have hlu : lvl u < rd := by
                have := hgr i m.upstreamNodes hups u hu
                omega
              obtain ⟨w, hw⟩ := Option.isSome_iff_exists.mp (hreg i m.upstreamNodes hups u hu)
              have hstu : stateOf g u = some w.state := stateOf_eq_some_state g u w hw
              rw [hstu, hB4 u w.state hstu hlu]
            rcases hB3 i m.upstreamNodes hups hdd with h | h
            · have hc := q3 i ((readyIds_iff g hnd i).mpr h)
              rw [hs] at hc
              injection hc with hc'
            · have hc := q4 i h
              rw [hs] at hc
              injection hc with hc'
        have hloop : execLoop exec (fuel + 1) g =
            ((execLoop exec fuel g').1, (execLoop exec fuel g').2 + 1) := by
          show (if (readyIds g).isEmpty = true then
              if allDoneCheck g = true then (g, 0) else execLoop exec fuel g
            else
              let p := execLoop exec fuel (runRound exec g)
              (p.1, p.2 + 1)) = _
          rw [if_neg h1]
        obtain ⟨ih1, ih2⟩ := ih (rd + 1) g' (by rw [hids]; exact hnd) q1 q2 q5 q6
          (fun i ups hups u hu => (hsomeiff u).mpr
            (hreg i ups (by rw [← q7 i]; exact hups) u hu))
          (fun i ups hups u hu => hgr i ups (by rw [← q7 i]; exact hups) u hu)
          (fun i hfn => hbound i ((hsomeiff i).mp hfn))
          hB4' (by omega) (by omega)
        rw [hloop]
        exact ⟨ih1, by omega⟩

theorem list_isEmpty_eq_nil {α : Type} (l : List α) (h : l.isEmpty = true) : l = [] := by
  cases l with
  | nil => rfl
  | cons a t => exact Bool.noConfusion h

theorem registerNode_foldl_fresh : ∀ (l acc : List ExecutionNode),
    (∀ n ∈ l, ¬n.id ∈ acc.map (·.id)) → (l.map (·.id)).Nodup →
    l.foldl registerNode acc = acc ++ l := by
  intro l
  induction l with
  | nil =>
      intro acc _ _
      simp
  | cons n0 l' ih =>
      intro acc hfresh hnd
      rw [List.map_cons, List.nodup_cons] at hnd
      have h0 : ¬acc.any (fun m => decide (m.id = n0.id)) = true := by
        intro h
        rw [List.any_eq_true] at h
        obtain ⟨m, hm, hmid⟩ := h
        rw [decide_eq_true_eq] at hmid
        exact hfresh n0 (List.mem_cons_self n0 l') (List.mem_map.mpr ⟨m, hm, hmid⟩)
      have hstep : registerNode acc n0 = acc ++ [n0] := by
        unfold registerNode
        rw [if_neg h0]
      have hfold : (n0 :: l').foldl registerNode acc =
          l'.foldl registerNode (registerNode acc n0) := rfl
      rw [hfold, hstep]
      have hfresh' : ∀ n ∈ l', ¬n.id ∈ (acc ++ [n0]).map (·.id) := by
        intro n hn hmem
        rw [List.map_append, List.mem_append] at hmem
        rcases hmem with h | h
        · exact hfresh n (List.mem_cons_of_mem _ hn) h
        · simp at h
          exact hnd.1 (by rw [← h]; exact List.mem_map.mpr ⟨n, hn, rfl⟩)
      rw [ih (acc ++ [n0]) hfresh' hnd.2]
      simp

/-- Registering a duplicate-free node list into the fresh scheduler
stores exactly that list, in order. -/
theorem registerNodes_empty (l : List ExecutionNode) (hnd : (l.map (·.id)).Nodup) :
    (registerNodes ⟨[], [], []⟩ l).nodes = l := by
  show l.foldl registerNode [] = l
  rw [registerNode_foldl_fresh l [] (by intro n hn h; cases h) hnd]
  simp

theorem ids_seedRoots : ∀ (l : List ExecutionNode) (g : GBS),
    (seedRoots g l).nodes.map (·.id) = g.nodes.map (·.id) := by
  intro l
  induction l with
  | nil => intro g; rfl
  | cons n0 l' ih =>
      intro g
      have hfold : seedRoots g (n0 :: l') =
          seedRoots (if n0.upstreamNodes.isEmpty = true then
            updateState g n0.id .ready else g) l' := rfl
      rw [hfold, ih]
      by_cases h : n0.upstreamNodes.isEmpty = true
      · rw [if_pos h, ids_updateState]
      · rw [if_neg h]

/-- The roots-seeding pass of `execute_dag`: edges and registration are
untouched, states change only to READY, exactly the listed registered
nodes with an empty upstream list are newly READY, and READY persists. -/
theorem seedRoots_spec : ∀ (l : List ExecutionNode) (g : GBS),
    (∀ j, upstreamOf (seedRoots g l) j = upstreamOf g j) ∧
    (∀ j, downstreamOf (seedRoots g l) j = downstreamOf g j) ∧
    (∀ j, stateOf (seedRoots g l) j = stateOf g j ∨
      stateOf (seedRoots g l) j = some .ready) ∧
    (∀ j, stateOf (seedRoots g l) j = some .ready →
      stateOf g j = some .ready ∨ ∃ n, n ∈ l ∧ n.id = j ∧ n.upstreamNodes = []) ∧
    (∀ j, stateOf g j = some .ready → stateOf (seedRoots g l) j = some .ready) ∧
    (∀ n ∈ l, n.upstreamNodes = [] → (stateOf g n.id).isSome = true →
      stateOf (seedRoots g l) n.id = some .ready) ∧
    (∀ j, (stateOf (seedRoots g l) j).isSome = (stateOf g j).isSome) := by
  intro l
  induction l with
  | nil =>
      intro g
      refine ⟨fun j => rfl, fun j => rfl, fun j => Or.inl rfl, fun j h => Or.inl h,
        fun j h => h, ?_, fun j => rfl⟩
      intro n hn
      cases hn
  | cons n0 l' ih =>
      intro g
      by_cases hup0 : n0.upstreamNodes.isEmpty = true
      · have hfold : seedRoots g (n0 :: l') = seedRoots (updateState g n0.id .ready) l' := by
          show seedRoots (if n0.upstreamNodes.isEmpty = true then
            updateState g n0.id .ready else g) l' = _
          rw [if_pos hup0]
        have hst1 : ∀ j, stateOf (updateState g n0.id .ready) j =
            if j = n0.id then (stateOf g n0.id).map (fun _ => NodeState.ready)
            else stateOf g j :=
          stateOf_updateState_ne_completed g n0.id .ready (by decide)
        have hu1 : ∀ j, upstreamOf (updateState g n0.id .ready) j = upstreamOf g j :=
          upstreamOf_updateState_ne_completed g n0.id .ready (by decide)
        have hd1 : ∀ j, downstreamOf (updateState g n0.id .ready) j = downstreamOf g j :=
          downstreamOf_updateState_ne_completed g n0.id .ready (by decide)
        have hsome1 : ∀ j, (stateOf (updateState g n0.id .ready) j).isSome =
            (stateOf g j).isSome := by
          intro j
          rw [hst1 j]
          by_cases hjn : j = n0.id
          · rw [if_pos hjn, hjn]
            cases stateOf g n0.id <;> rfl
          · rw [if_neg hjn]
        obtain ⟨iup, idown, ic, id2, ipers, imem, isome⟩ := ih (updateState g n0.id .ready)
        rw [hfold]
        refine ⟨?_, ?_, ?_, ?_, ?_, ?_, ?_⟩
        · intro j
          rw [iup j, hu1 j]
        · intro j
          rw [idown j, hd1 j]
        · intro j
          rcases ic j with h | h
          · rw [h, hst1 j]
            by_cases hj : j = n0.id
            · rw [if_pos hj]
              cases hg : stateOf g n0.id with
              | none => exact Or.inl (by rw [hj, hg]; rfl)
              | some st => exact Or.inr rfl
            · rw [if_neg hj]
              exact Or.inl rfl
          · exact Or.inr h
        · intro j hj
          rcases id2 j hj with h | ⟨n, hn, hni, hnu⟩
          · rw [hst1 j] at h
            by_cases hjn : j = n0.id
            · exact Or.inr ⟨n0, List.mem_cons_self n0 l', hjn.symm,
                list_isEmpty_eq_nil _ hup0⟩
            · rw [if_neg hjn] at h
              exact Or.inl h
          · exact Or.inr ⟨n, List.mem_cons_of_mem _ hn, hni, hnu⟩
        · intro j hj
          refine ipers j ?_
          rw [hst1 j]
          by_cases hjn : j = n0.id
          · rw [if_pos hjn, ← hjn, hj]
            rfl
          · rw [if_neg hjn]
            exact hj
        · intro n hn hnu hsome
          rcases List.mem_cons.mp hn with h0 | hmem
          · subst h0
            refine ipers n.id ?_
            rw [hst1 n.id, if_pos rfl]
            obtain ⟨st, hst⟩ := Option.isSome_iff_exists.mp hsome
            rw [hst]
            rfl
          · refine imem n hmem hnu ?_
            rw [hsome1 n.id]
            exact hsome
        · intro j
          rw [isome j, hsome1 j]
      · have hfold : seedRoots g (n0 :: l') = seedRoots g l' := by
          show seedRoots (if n0.upstreamNodes.isEmpty = true then
            updateState g n0.id .ready else g) l' = _
          rw [if_neg hup0]
        obtain ⟨iup, idown, ic, id2, ipers, imem, isome⟩ := ih g
        rw [hfold]
        refine ⟨iup, idown, ic, ?_, ipers, ?_, isome⟩
        · intro j hj
          rcases id2 j hj with h | ⟨n, hn, hni, hnu⟩
          · exact Or.inl h
          · exact Or.inr ⟨n, List.mem_cons_of_mem _ hn, hni, hnu⟩
        · intro n hn hnu hsome
          rcases List.mem_cons.mp hn with h0 | hmem
          · subst h0
            rw [hnu] at hup0
            exact absurd rfl hup0
          · exact imem n hmem hnu hsome

/-- C7: for an acyclic dependency graph — witnessed by a level function
`lvl` that strictly increases along every dependency edge and is
bounded by `d` — whose duplicate-free nodes all start IDLE, whose
downstream lists are the exact structural inverse of the upstream
lists, and whose upstream references all resolve within the graph,
`execute_dag` under an execution capability that always returns a
result drives every node in the final status map to COMPLETED, and the
number of dispatching loop iterations performed is at most `d` (in
particular bounded by the depth of the graph rather than by the
`2 * n` iteration cap). -/
theorem C7_all_completed_depth_bound (exec : ExecutionNode → Except String String)
    (dagNodes : List ExecutionNode) (lvl : String → Nat) (d : Nat)
    (hexec : ∀ n, ∃ r, exec n = Except.ok r)
    (hnd : (dagNodes.map (·.id)).Nodup)
    (hidle : ∀ v ∈ dagNodes, v.state = .idle)
    (hinv : ∀ u ∈ dagNodes, ∀ v ∈ dagNodes,
      u.id ∈ v.upstreamNodes ↔ v.id ∈ u.downstreamNodes)
    (hclosed : ∀ v ∈ dagNodes, ∀ u ∈ v.upstreamNodes, u ∈ dagNodes.map (·.id))
    (hgrd : ∀ v ∈ dagNodes, ∀ u ∈ v.upstreamNodes, lvl u < lvl v.id)
    (hbd : ∀ v ∈ dagNodes, lvl v.id < d)
    (hd2 : d ≤ 2 * dagNodes.length) :
    (∀ n ∈ (executeDag exec ⟨[], [], []⟩ dagNodes).1.nodes, n.state = .completed) ∧
    (executeDag exec ⟨[], [], []⟩ dagNodes).2 ≤ d := by
  set e : GBS := ⟨[], [], []⟩ with he
  set g1 : GBS := registerNodes e dagNodes with hg1d
  set g2 : GBS := seedRoots g1 dagNodes with hg2d
  have hed : executeDag exec e dagNodes = execLoop exec (2 * dagNodes.length) g2 := rfl
  have hg1n : g1.nodes = dagNodes := registerNodes_empty dagNodes hnd
  have hids1 : g1.nodes.map (·.id) = dagNodes.map (·.id) := by rw [hg1n]
  have hnd1 : (g1.nodes.map (·.id)).Nodup := by
    rw [hids1]
    exact hnd
  have hidle1 : ∀ i s, stateOf g1 i = some s → s = .idle := by
    intro i s hs
    obtain ⟨n, hn, hns⟩ := Option.map_eq_some'.mp hs
    have hmem := (findNode_mem _ _ _ hn).1
    rw [hg1n] at hmem
    rw [← hns]
    exact hidle n hmem
  have hJ1 : Jinv g1 := by
    intro i hstate ups hups u hu
    exfalso
    rcases hstate with h | h | h <;> (have hcontr := hidle1 i _ h; cases hcontr)
  have hW1 : WFinv g1 := by
    refine WFinv_of_WFnodes g1 ?_
    intro u hu v hv
    rw [hg1n] at hu hv
    exact hinv u hu v hv
  obtain ⟨sup, sdown, sc, sd, spers, smem, ssome⟩ := seedRoots_spec dagNodes g1
  have hups2 : ∀ i ups, upstreamOf g2 i = some ups →
      ∃ n, n ∈ dagNodes ∧ n.id = i ∧ n.upstreamNodes = ups := by
    intro i ups hups
    rw [sup i] at hups
    obtain ⟨n, hn, hnu⟩ := Option.map_eq_some'.mp hups
    obtain ⟨hmem, hid⟩ := findNode_mem _ _ _ hn
    rw [hg1n] at hmem
    exact ⟨n, hmem, hid, hnu⟩
  have hstates2 : ∀ i s, stateOf g2 i = some s → s = .idle ∨ s = .ready := by
    intro i s hs
    rcases sc i with h | h
    · rw [hs] at h
      exact Or.inl (hidle1 i s h.symm)
    · rw [hs] at h
      injection h with h'
      exact Or.inr h'
  have hB1g2 : ∀ i s, stateOf g2 i = some s →
      s = .idle ∨ s = .ready ∨ s = .completed := by
    intro i s hs
    rcases hstates2 i s hs with h | h
    · exact Or.inl h
    · exact Or.inr (Or.inl h)
  have hJ2 : Jinv g2 := by
    intro i hstate ups hups u hu
    have hready : stateOf g2 i = some .ready := by
      rcases hstate with h | h | h
      · exact h
      · rcases hstates2 i _ h with h' | h' <;> cases h'
      · rcases hstates2 i _ h with h' | h' <;> cases h'
    rcases sd i hready with h | ⟨n, hn, hni, hnu⟩
    · have hcontr := hidle1 i _ h
      cases hcontr
    · have hmemg1 : n ∈ g1.nodes := by
        rw [hg1n]
        exact hn
      have hfn : findNode g1.nodes i = some n := by
        have hx := findNode_eq_of_mem_nodup g1.nodes hnd1 n hmemg1
        rw [hni] at hx
        exact hx
      have hupsg1 : upstreamOf g1 i = some [] := by
        unfold upstreamOf
        rw [hfn]
        show some n.upstreamNodes = some []
        rw [hnu]
      rw [sup i, hupsg1] at hups
      injection hups with h'
      rw [← h'] at hu
      cases hu
  have hW2 : WFinv g2 := by
    intro a b ups downs hups hdowns
    rw [sup a] at hups
    rw [sdown b] at hdowns
    exact hW1 a b ups downs hups hdowns
  have hB3g2 : ∀ i ups, upstreamOf g2 i = some ups → depsDone g2 ups = true →
      stateOf g2 i = some .ready ∨ stateOf g2 i = some .completed := by
    intro i ups hups hdd
    have hupsnil : ups = [] := by
      cases hups' : ups with
      | nil => rfl
      | cons u us =>
          exfalso
          rw [depsDone_true_iff] at hdd
          have hu := hdd u (by rw [hups']; exact List.mem_cons_self u us)
          rcases hstates2 u _ hu with h | h <;> cases h
    subst hupsnil
    obtain ⟨n, hn, hni, hnu⟩ := hups2 i [] hups
    left
    have hmemg1 : n ∈ g1.nodes := by
      rw [hg1n]
      exact hn
    have hfn : findNode g1.nodes n.id = some n :=
      findNode_eq_of_mem_nodup g1.nodes hnd1 n hmemg1
    have hsome : (stateOf g1 n.id).isSome = true := by
      unfold stateOf
      rw [hfn]
      rfl
    have hx := smem n hn hnu hsome
    rw [hni] at hx
    exact hx
  have hids2 : g2.nodes.map (·.id) = dagNodes.map (·.id) := by
    have hx := ids_seedRoots dagNodes g1
    rw [hids1] at hx
    exact hx
  have hnd2 : (g2.nodes.map (·.id)).Nodup := by
    rw [hids2]
    exact hnd
  have hreg2 : ∀ i ups, upstreamOf g2 i = some ups → ∀ u ∈ ups,
      (findNode g2.nodes u).isSome = true := by
    intro i ups hups u hu
    obtain ⟨n, hn, hni, hnu⟩ := hups2 i ups hups
    rw [findNode_isSome_iff, hids2]
    exact hclosed n hn u (by rw [hnu]; exact hu)
  have hgr2 : ∀ i ups, upstreamOf g2 i = some ups → ∀ u ∈ ups, lvl u < lvl i := by
    intro i ups hups u hu
    obtain ⟨n, hn, hni, hnu⟩ := hups2 i ups hups
    rw [← hni]
    exact hgrd n hn u (by rw [hnu]; exact hu)
  have hbound2 : ∀ i, (findNode g2.nodes i).isSome = true → lvl i < d := by
    intro i hfn
    rw [findNode_isSome_iff, hids2] at hfn
    obtain ⟨v, hv, hvi⟩ := List.mem_map.mp hfn
    rw [← hvi]
    exact hbd v hv
  obtain ⟨hall, hcnt⟩ := execLoop_spec exec hexec lvl d (2 * dagNodes.length) 0 g2
    hnd2 hJ2 hW2 hB1g2 hB3g2 hreg2 hgr2 hbound2
    (fun i s _ h => absurd h (Nat.not_lt_zero _)) (by omega) (Nat.zero_le d)
  rw [hed]
  refine ⟨?_, ?_⟩
  · intro n hn
    have hndf : ((execLoop exec (2 * dagNodes.length) g2).1.nodes.map (·.id)).Nodup := by
      rw [ids_execLoop]
      exact hnd2
    have hfn := findNode_eq_of_mem_nodup _ hndf n hn
    have hst := stateOf_eq_some_state _ n.id n hfn
    exact hall n.id n.state hst
  · omega

/-- Witness for C7 on the concrete four-node graph `{A→B, A→C, B→D}`
with the always-succeeding capability and depth bound 3. -/
theorem C7_witness :
    (∀ n ∈ (executeDag exOk ⟨[], [], []⟩ dagFail).1.nodes, n.state = .completed) ∧
    (executeDag exOk ⟨[], [], []⟩ dagFail).2 ≤ 3 :=
  C7_all_completed_depth_bound exOk dagFail
    (fun s => if s = "A" then 0 else if s = "D" then 2 else 1) 3
    (fun n => ⟨"done " ++ n.id, rfl⟩) (by decide) (by decide) (by decide)
    (by decide) (by decide) (by decide) (by decide)
